import Mathlib

/-
Verification development for the MCTS move-selection engine consisting of the
two source files mcts_vanilla.py and mcts_modified.py.

Embedding conventions:
- The game adapter (class Board of p2_t3, an external collaborator) is a
  structure of pure functions, mirroring the capability set the engine calls.
- The mutable search tree is an arena: a list of nodes addressed by index, with
  child edges stored as (action, index) association lists in insertion order
  (Python dicts preserve insertion order) and parent back-references as indices.
- Python while loops become fuel-indexed recursion returning Option: a none
  result marks either fuel exhaustion (modelling divergence) or a run-time
  fault of the Python code (calling next_state on an absent action, asserting
  on a non-terminal state, or random.choice on an empty sequence).
- Python floats are modelled as real numbers (for the UCB formula, which uses
  sqrt and log), exact rationals (win-rate comparisons in get_best_action) and
  integers (the heuristic scores, which are Python ints in the source).
- random.choice is modelled by threading an oracle rng : Nat -> Nat and a
  counter; choice(seq) reads the oracle and reduces it modulo the length.
-/

/-- Game adapter capability set consumed by the engine (the Board class of
p2_t3; external collaborator, modelled as a record of pure functions). -/
structure Board (S A : Type) where
  legal_actions : S → List A
  next_state : S → A → S
  is_ended : S → Bool
  current_player : S → ℕ
  points_values : S → Option (ℕ → ℤ)
  win_values : S → Option (List (ℕ × ℤ))

/-- Modelled from the spec: the Search Node of mcts_node.py, which is not part
of the two source files. Spec section 3: parent back-reference (absent for the
root), parent_action (absent for the root), children as an action-to-node
mapping in insertion order, a mutable untried_actions sequence, and
non-negative visit and win counters. Nodes live in an arena (a list), so the
parent reference and the child values are indices into that list. -/
structure MCTSNode (A : Type) where
  parent : Option ℕ
  parent_action : Option A
  child_nodes : List (A × ℕ)
  untried_actions : List A
  visits : ℕ
  wins : ℕ
deriving DecidableEq

/-- Arena of search nodes; index 0 is the root of the decision tree. -/
abbrev Arena (A : Type) := List (MCTSNode A)

/-- Placeholder node returned by out-of-range arena reads (never reached on
the index sets the theorems quantify over). -/
def dummyNode {A : Type} : MCTSNode A :=
  ⟨none, none, [], [], 0, 0⟩

/-- Read a node of the arena. -/
def getNode {A : Type} (t : Arena A) (i : ℕ) : MCTSNode A :=
  (t[i]?).getD dummyNode

/-- Generic accumulator scan shared by the three source loops that track a
running best score and best payload under a strictly-greater comparison
(traverse_nodes, get_best_action, and the greedy rollout of mcts_modified).
The accumulator starts at (sentinel, none) and an element replaces it exactly
when its score strictly exceeds the stored score, so the first element
attaining the overall maximum is kept. -/
def scanBest {β K δ : Type} [LinearOrder K] (f : β → K) (g : β → δ) (init : K)
    (l : List β) : K × Option δ :=
  l.foldl (fun acc x => if f x > acc.1 then (f x, some (g x)) else acc) (init, none)

/-- Function ucb of mcts_vanilla.py lines 124-144 (identically lines 176-191
of mcts_modified.py), over the three counters it reads from the node:
node.wins, node.visits and node.parent.visits. Python floats are modelled as
real numbers. -/
noncomputable def ucb (wins visits parent_visits : ℕ) (is_opponent : Bool) : ℝ :=
  let explorationFactor : ℝ := Real.sqrt 2
  let winRate : ℝ := (wins : ℝ) / (visits : ℝ)
  let winRate2 : ℝ := if is_opponent then 1 - winRate else winRate
  winRate2 + explorationFactor * Real.sqrt (Real.log (parent_visits : ℝ) / (visits : ℝ))

/-- Value of ucb at a node of the arena, reading node.wins, node.visits and
node.parent.visits exactly as the source does. An absent parent is read
through an out-of-range index (Python would fault there; selection only
evaluates ucb on children, whose parent is present). -/
noncomputable def ucbAt {A : Type} (t : Arena A) (i : ℕ) (is_opponent : Bool) : ℝ :=
  let node := getNode t i
  ucb node.wins node.visits (getNode t (node.parent.getD t.length)).visits is_opponent

/-- UCB value of a child as evaluated inside the selection loop of
traverse_nodes (line 34 of mcts_vanilla.py, line 30 of mcts_modified.py): the
is_opponent flag passed to ucb is the test bot_identity == current_player of
the state at the node whose children are being scanned. -/
noncomputable def selectionUcb {S A : Type} (t : Arena A) (b : Board S A) (s : S)
    (bot_identity : ℕ) (childIdx : ℕ) : ℝ :=
  ucbAt t childIdx (bot_identity == b.current_player s)

/-- Body of the for-loop of traverse_nodes scanning every (action, child) item
of node.child_nodes: running best UCB value initialised to the sentinel -9999
and best child initialised to None, replaced on strictly-greater comparison. -/
noncomputable def selectPass {S A : Type} (t : Arena A) (b : Board S A) (s : S)
    (bot_identity : ℕ) (children : List (A × ℕ)) : ℝ × Option ℕ :=
  scanBest (fun ac => selectionUcb t b s bot_identity ac.2) (fun ac => ac.2)
    (-9999) children

/-- Function traverse_nodes of mcts_vanilla.py lines 27-45 (identically
mcts_modified.py lines 25-40), as a fuel-indexed loop. While the node has no
untried actions and has children, scan the children for the best UCB value;
if a best child was found, move to it and advance the state by its
parent_action, otherwise repeat with node and state unchanged (the source then
re-enters the loop with an unchanged condition). A none result is fuel
exhaustion (the Python loop not terminating within the fuel) or a fault. -/
noncomputable def traverse_nodes {S A : Type} (t : Arena A) (b : Board S A)
    (bot_identity : ℕ) : ℕ → ℕ → S → Option (ℕ × S)
  | 0, _, _ => none
  | fuel + 1, i, s =>
    let node := getNode t i
    if node.untried_actions.isEmpty && !node.child_nodes.isEmpty then
      match (selectPass t b s bot_identity node.child_nodes).2 with
      | some j =>
        match (getNode t j).parent_action with
        | some a => traverse_nodes t b bot_identity fuel j (b.next_state s a)
        | none => none
      | none => traverse_nodes t b bot_identity fuel i s
    else
      some (i, s)

/-- Function expand_leaf of mcts_vanilla.py lines 49-76 (identically
mcts_modified.py lines 43-64). If the node has no untried actions, return
(None, state) with the arena untouched. Otherwise pop the last untried action,
compute the resulting state, create the child node (constructor modelled from
the spec, section 3: fresh statistics, untried_actions initialised to the
legal actions of the new state), register it under that action in the parent
and return the child index, its state and the updated arena. -/
def expand_leaf {S A : Type} (t : Arena A) (i : ℕ) (b : Board S A) (s : S) :
    Option ℕ × S × Arena A :=
  let node := getNode t i
  if node.untried_actions.isEmpty then
    (none, s, t)
  else
    match node.untried_actions.getLast? with
    | none => (none, s, t)
    | some actionToExpand =>
      let newGameState := b.next_state s actionToExpand
      let newChildNode : MCTSNode A :=
        ⟨some i, some actionToExpand, [], b.legal_actions newGameState, 0, 0⟩
      let newIdx := t.length
      let t2 := t.set i
        { node with
          untried_actions := node.untried_actions.dropLast,
          child_nodes := node.child_nodes ++ [(actionToExpand, newIdx)] }
      (some newIdx, newGameState, t2 ++ [newChildNode])

/-- Function rollout of mcts_vanilla.py lines 80-97: while the state is not
terminal, pick a uniformly random legal action and apply it. The randomness of
random.choice is an oracle rng with a running counter k; choice reads one
oracle value and indexes the legal-action list modulo its length. A none
result is fuel exhaustion or the fault of choice on an empty sequence. -/
def rollout {S A : Type} (b : Board S A) (rng : ℕ → ℕ) :
    ℕ → ℕ → S → Option (S × ℕ)
  | 0, _, _ => none
  | fuel + 1, k, s =>
    if b.is_ended s then
      some (s, k)
    else
      let legal := b.legal_actions s
      match legal[rng k % legal.length]? with
      | none => none
      | some chosenAction => rollout b rng fuel (k + 1) (b.next_state s chosenAction)

/-- Function backpropagate of mcts_vanilla.py lines 100-118 (identically
mcts_modified.py lines 161-173): walk the parent chain from a possibly absent
node, incrementing visits at every node and wins exactly when won is true. A
none result is fuel exhaustion. -/
def backpropagate {A : Type} (t : Arena A) (won : Bool) :
    ℕ → Option ℕ → Option (Arena A)
  | _, none => some t
  | 0, some _ => none
  | fuel + 1, some i =>
    let node := getNode t i
    backpropagate
      (t.set i
        { node with
          visits := node.visits + 1,
          wins := node.wins + (if won then 1 else 0) })
      won fuel node.parent

/-- Function get_best_action of mcts_vanilla.py lines 148-168 (identically
mcts_modified.py lines 194-212): scan the root children for the strictly
highest win rate, starting from the sentinel -9999 with no action; win rates
are exact rationals wins / visits. -/
def get_best_action {A : Type} (t : Arena A) (rootIdx : ℕ) : Option A :=
  (scanBest
    (fun ac => ((getNode t ac.2).wins : ℚ) / ((getNode t ac.2).visits : ℚ))
    (fun ac => ac.1) (-9999) (getNode t rootIdx).child_nodes).2

/-- Function is_win of mcts_vanilla.py lines 171-175 (identically
mcts_modified.py lines 215-219): outcome lookup on the terminal state; the
assertion on a non-terminal state (points_values absent) is modelled by a none
result. -/
def is_win {S A : Type} (b : Board S A) (s : S) (identity_of_bot : ℕ) : Option Bool :=
  match b.points_values s with
  | none => none
  | some outcome => some (outcome identity_of_bot == 1)

/-- Iteration budget num_nodes of mcts_vanilla.py line 6 (identically
mcts_modified.py line 5). -/
def num_nodes : ℕ := 1000

/-- Step-1 loop of think (mcts_vanilla.py line 199): while the node is fully
expanded and has children, call traverse_nodes. After one successful call the
condition is re-checked on the reached node. -/
noncomputable def outerTraverse {S A : Type} (t : Arena A) (b : Board S A)
    (bot_identity : ℕ) : ℕ → ℕ → S → Option (ℕ × S)
  | 0, _, _ => none
  | fuel + 1, i, s =>
    let node := getNode t i
    if node.untried_actions.isEmpty && !node.child_nodes.isEmpty then
      match traverse_nodes t b bot_identity fuel i s with
      | some (i2, s2) => outerTraverse t b bot_identity fuel i2 s2
      | none => none
    else
      some (i, s)

/-- Loop body of think (mcts_vanilla.py lines 192-211): reset node and state
to the root, traverse, expand when untried actions remain, roll out, test the
outcome for the bot identity and backpropagate. Returns the updated arena and
the advanced randomness counter. -/
noncomputable def mctsIter {S A : Type} (b : Board S A) (current_state : S)
    (bot_identity : ℕ) (rng : ℕ → ℕ) (fuel : ℕ) (t : Arena A) (k : ℕ) :
    Option (Arena A × ℕ) :=
  match outerTraverse t b bot_identity fuel 0 current_state with
  | none => none
  | some (i, s) =>
    let step2 :=
      if (getNode t i).untried_actions.isEmpty then (some i, s, t)
      else expand_leaf t i b s
    match rollout b rng fuel k step2.2.1 with
    | none => none
    | some (rolloutState, k2) =>
      match is_win b rolloutState bot_identity with
      | none => none
      | some won =>
        match backpropagate step2.2.2 won fuel step2.1 with
        | none => none
        | some tAfter => some (tAfter, k2)

/-- The for-loop of think over the iteration budget. -/
noncomputable def thinkLoop {S A : Type} (b : Board S A) (current_state : S)
    (bot_identity : ℕ) (rng : ℕ → ℕ) (fuel : ℕ) :
    ℕ → Arena A × ℕ → Option (Arena A × ℕ)
  | 0, tk => some tk
  | n + 1, (t, k) =>
    match mctsIter b current_state bot_identity rng fuel t k with
    | none => none
    | some tk2 => thinkLoop b current_state bot_identity rng fuel n tk2

/-- Function think of mcts_vanilla.py lines 178-218: capture the bot identity
from the mover at the input state, build a fresh root whose untried actions
are the legal actions of that state, run the iteration budget and extract the
decision with get_best_action. The final arena is returned next to the chosen
action so that theorems can state tree invariants; the source keeps the tree
in local variables and returns only the action. -/
noncomputable def think {S A : Type} (b : Board S A) (current_state : S)
    (rng : ℕ → ℕ) (iterations fuel : ℕ) : Option (Arena A × Option A) :=
  let bot_identity := b.current_player current_state
  let root_node : MCTSNode A := ⟨none, none, [], b.legal_actions current_state, 0, 0⟩
  match thinkLoop b current_state bot_identity rng fuel iterations ([root_node], 0) with
  | none => none
  | some (t, _) => some (t, get_best_action t 0)

/-- Action type of the ultimate-tic-tac-toe adapter: a 4-tuple of coordinates
(outer row, outer column, inner row, inner column); the slice action[2:] used
by the heuristic of mcts_modified.py is the last pair. -/
abbrev Act : Type := ℕ × ℕ × ℕ × ℕ

/-- Slice action[2:] of a 4-tuple action: its board-local (row, column). -/
def actTail (a : Act) : ℕ × ℕ := a.2.2

namespace MctsModified

/-- Python truthiness of the win_values result as tested on line 134 of
mcts_modified.py: a present, non-empty mapping. -/
def winTruthy (o : Option (List (ℕ × ℤ))) : Bool :=
  match o with
  | none => false
  | some l => !l.isEmpty

/-- Function heuristic of mcts_modified.py lines 98-149: positional score of
an action as a Python int. The branch condition of line 115 is the identity
test currentPlayer is not opponent, which on the small player ints 1 and 2
coincides with inequality. The running pointGreatness accumulator is written
as the sum of the four conditional contributions of each branch. -/
def heuristic {S : Type} (b : Board S Act) (state : S)
    (opponent currentPlayer : ℕ) (action : Act) : ℤ :=
  if currentPlayer ≠ opponent then
    (if (b.win_values state).isSome then 100000000000 else 0)
    + (if actTail action = (1, 1) then 100000000 else 0)
    + (if actTail action ∈ [(0, 0), (0, 2), (2, 0), (2, 2)] then 500 else 0)
    + (if actTail action ∈ [(1, 0), (0, 1), (1, 2), (2, 1)] then 100 else 0)
  else
    (if winTruthy (b.win_values state) then -10000 else 0)
    + (if actTail action = (1, 1) then -1000 else 0)
    + (if actTail action ∈ [(0, 0), (0, 2), (2, 0), (2, 2)] then -500 else 0)
    + (if actTail action ∈ [(1, 0), (0, 1), (1, 2), (2, 1)] then -100 else 0)

/-- Identities captured once at the start of rollout (mcts_modified.py lines
78-79): the mover at the rollout entry state and its opponent. Both stay fixed
for the whole rollout; the loop never re-reads the current player. -/
def rolloutCaptured {S : Type} (b : Board S Act) (state : S) : ℕ × ℕ :=
  let current_player := b.current_player state
  (current_player, if current_player = 2 then 1 else 2)

/-- One step of the greedy rollout loop of mcts_modified.py lines 82-91: score
every legal action by the heuristic at the hypothetical next state and keep
the first action whose score strictly exceeds the running best, starting from
the sentinel. -/
def greedyStep {S : Type} (b : Board S Act) (opponent current_player : ℕ)
    (state : S) : ℤ × Option Act :=
  scanBest
    (fun action => heuristic b (b.next_state state action) opponent current_player action)
    (fun action => action) (-9999999999999999999999) (b.legal_actions state)

/-- While-loop of the greedy rollout (mcts_modified.py lines 81-93) with the
captured identities held fixed, instrumented with the list of actions it
plays so that determinism of the action sequence can be stated. A none result
is fuel exhaustion or the fault of next_state on an absent best action. -/
def rolloutLoop {S : Type} (b : Board S Act) (opponent current_player : ℕ) :
    ℕ → S → Option (List Act × S)
  | 0, _ => none
  | fuel + 1, state =>
    if b.is_ended state then
      some ([], state)
    else
      match (greedyStep b opponent current_player state).2 with
      | none => none
      | some best_action =>
        match rolloutLoop b opponent current_player fuel (b.next_state state best_action) with
        | none => none
        | some (tr, final) => some (best_action :: tr, final)

/-- Function rollout of mcts_modified.py lines 67-95: capture the mover and
opponent at the entry state once, then play greedily to a terminal state. The
returned pair carries the played action sequence next to the terminal state
the source returns. -/
def rollout {S : Type} (b : Board S Act) (fuel : ℕ) (state : S) :
    Option (List Act × S) :=
  let cap := rolloutCaptured b state
  rolloutLoop b cap.2 cap.1 fuel state

end MctsModified

/-- Scanning a block of elements none of which strictly beats the stored best
score leaves the accumulator unchanged. -/
theorem scanFold_stay {β K δ : Type} [LinearOrder K] (f : β → K) (g : β → δ)
    (l : List β) (m : K) (d : Option δ) (h : ∀ x ∈ l, f x ≤ m) :
    l.foldl (fun acc x => if f x > acc.1 then (f x, some (g x)) else acc) (m, d) = (m, d) := by
  induction l with
  | nil => rfl
  | cons a l ih =>
    have ha : f a ≤ m := h a (List.mem_cons_self a l)
    simp only [List.foldl_cons, if_neg (not_lt.mpr ha)]
    exact ih (fun x hx => h x (List.mem_cons_of_mem a hx))

/-- Any payload delivered by the scan comes from the initial accumulator or
from some scanned element. -/
theorem scanFold_mem {β K δ : Type} [LinearOrder K] (f : β → K) (g : β → δ) :
    ∀ (l : List β) (m : K) (d : Option δ) (j : δ),
      (l.foldl (fun acc x => if f x > acc.1 then (f x, some (g x)) else acc) (m, d)).2 = some j →
      d = some j ∨ ∃ x ∈ l, g x = j := by
  intro l
  induction l with
  | nil => intro m d j h; exact Or.inl h
  | cons a l ih =>
    intro m d j h
    simp only [List.foldl_cons] at h
    by_cases hc : f a > m
    · rw [if_pos hc] at h
      rcases ih (f a) (some (g a)) j h with h1 | h2
      · exact Or.inr ⟨a, List.mem_cons_self a l, Option.some_injective _ h1⟩
      · rcases h2 with ⟨x, hx, hgx⟩
        exact Or.inr ⟨x, List.mem_cons_of_mem a hx, hgx⟩
    · rw [if_neg hc] at h
      rcases ih m d j h with h1 | h2
      · exact Or.inl h1
      · rcases h2 with ⟨x, hx, hgx⟩
        exact Or.inr ⟨x, List.mem_cons_of_mem a hx, hgx⟩

/-- First-seen-argmax characterisation of the scan: as soon as some element
strictly beats the stored score, the scan returns the score and payload of the
first element attaining the maximum, every earlier element scoring strictly
less and every later element scoring at most as much. -/
theorem scanFold_firstMax {β K δ : Type} [LinearOrder K] (f : β → K) (g : β → δ) :
    ∀ (l : List β) (m : K) (d : Option δ), (∃ x ∈ l, m < f x) →
      ∃ l1 x l2, l = l1 ++ x :: l2 ∧
        l.foldl (fun acc y => if f y > acc.1 then (f y, some (g y)) else acc) (m, d)
          = (f x, some (g x)) ∧
        m < f x ∧ (∀ y ∈ l1, f y < f x) ∧ (∀ y ∈ l2, f y ≤ f x) := by
  intro l
  induction l with
  | nil => intro m d h; rcases h with ⟨x, hx, _⟩; cases hx
  | cons a l ih =>
    intro m d h
    by_cases h1 : m < f a
    · by_cases h2 : ∃ y ∈ l, f a < f y
      · rcases ih (f a) (some (g a)) h2 with ⟨l1, x, l2, heq, hfold, hlt, hall1, hall2⟩
        refine ⟨a :: l1, x, l2, by simp [heq], ?_, lt_trans h1 hlt, ?_, hall2⟩
        · simp only [List.foldl_cons, if_pos h1]
          exact hfold
        · intro y hy
          rcases List.mem_cons.mp hy with rfl | hy2
          · exact hlt
          · exact hall1 y hy2
      · push_neg at h2
        refine ⟨[], a, l, rfl, ?_, h1, ?_, h2⟩
        · simp only [List.nil_append, List.foldl_cons, if_pos h1]
          exact scanFold_stay f g l (f a) (some (g a)) h2
        · intro y hy
          cases hy
    · rcases h with ⟨x0, hx0, hmx0⟩
      rcases List.mem_cons.mp hx0 with rfl | hx0l
      · exact absurd hmx0 h1
      · rcases ih m d ⟨x0, hx0l, hmx0⟩ with ⟨l1, x, l2, heq, hfold, hlt, hall1, hall2⟩
        refine ⟨a :: l1, x, l2, by simp [heq], ?_, hlt, ?_, hall2⟩
        · simp only [List.foldl_cons, if_neg h1]
          exact hfold
        · intro y hy
          rcases List.mem_cons.mp hy with rfl | hy2
          · exact lt_of_le_of_lt (not_lt.mp h1) hlt
          · exact hall1 y hy2

/-- Claim C6: called on a node whose untried-action sequence is empty,
expand_leaf returns an absent child and the input state unchanged, and the
arena — hence the children mapping and the visit and win counters of every
node — is returned unmodified; no fault occurs. -/
theorem claim_C6_expand_leaf_empty {S A : Type} (t : Arena A) (i : ℕ)
    (b : Board S A) (s : S) (h : (getNode t i).untried_actions = []) :
    expand_leaf t i b s = (none, s, t) := by
  simp [expand_leaf, h]

/-- Witness for claim C6 at a concrete arena: a fully-expanded childless node
with statistics (visits 3, wins 2). -/
theorem claim_C6_expand_leaf_empty_witness :
    (getNode ([⟨none, none, [], [], 3, 2⟩] : Arena ℕ) 0).untried_actions = [] ∧
      expand_leaf ([⟨none, none, [], [], 3, 2⟩] : Arena ℕ) 0
        ⟨fun _ => [], fun s _ => s, fun _ => true, fun _ => 1, fun _ => none, fun _ => none⟩ 5
        = (none, 5, [⟨none, none, [], [], 3, 2⟩]) :=
  ⟨rfl, claim_C6_expand_leaf_empty _ 0 _ 5 rfl⟩

/-- Claim C8: with visits and parent visits held fixed and positive, the UCB
value from the perspective of the bot itself (is_opponent false, the
non-flipped case) is monotone in the win counter. -/
theorem claim_C8_ucb_monotone (visits parent_visits w1 w2 : ℕ)
    (hw : w1 ≤ w2) (hv : 0 < visits) (hp : 0 < parent_visits) :
    ucb w1 visits parent_visits false ≤ ucb w2 visits parent_visits false := by
  have hv2 : (0 : ℝ) < (visits : ℝ) := by exact_mod_cast hv
  have h1 : (w1 : ℝ) / (visits : ℝ) ≤ (w2 : ℝ) / (visits : ℝ) :=
    (div_le_div_iff_of_pos_right hv2).mpr (by exact_mod_cast hw)
  unfold ucb
  simp only [Bool.false_eq_true, if_false]
  exact add_le_add_right h1 _

/-- Witness for claim C8 at wins 0 and 1, one visit, one parent visit. -/
theorem claim_C8_ucb_monotone_witness :
    0 ≤ 1 ∧ 0 < 1 ∧ ucb 0 1 1 false ≤ ucb 1 1 1 false :=
  ⟨by norm_num, by norm_num,
    claim_C8_ucb_monotone 1 1 0 1 (by norm_num) (by norm_num) (by norm_num)⟩

/-- Trivial adapter in which player 1 is always the mover; used to exercise
the selection loop on hand-built arenas. -/
def boardOnes : Board ℕ ℕ :=
  ⟨fun _ => [], fun s _ => s, fun _ => true, fun _ => 1, fun _ => none, fun _ => none⟩

/-- Two-node arena: a fully-expanded root (one visit) with a single child that
has one visit and one win. -/
def arenaC1 : Arena ℕ :=
  [⟨none, none, [(5, 1)], [], 1, 0⟩, ⟨some 0, some 5, [], [], 1, 1⟩]

/-- Two-node arena: a fully-expanded root (one visit) with a single child that
has one visit and 20000 recorded wins (statistics a real run never produces,
but nothing in traverse_nodes rules out). -/
def arenaC3 : Arena ℕ :=
  [⟨none, none, [(5, 1)], [], 1, 0⟩, ⟨some 0, some 5, [], [], 1, 20000⟩]

/-- Value computed by the selection loop for the child of arenaC1 when the bot
identity is 1 and the mover at the parent state is also 1: the win rate 1/1 is
flipped to 0 and the exploration term vanishes (log 1 = 0). -/
theorem selectionUcb_arenaC1 : selectionUcb arenaC1 boardOnes 0 1 1 = 0 := by
  have h : selectionUcb arenaC1 boardOnes 0 1 1 = ucb 1 1 1 true := rfl
  rw [h]
  simp only [ucb]
  norm_num [Real.log_one, Real.sqrt_zero]

/-- UCB value of the same child left unflipped: 1/1 plus the vanishing
exploration term. -/
theorem ucb_unflipped_one : ucb 1 1 1 false = 1 := by
  simp only [ucb]
  norm_num [Real.log_one, Real.sqrt_zero]

/-- Claim C1 counterexample: at a parent state whose mover equals the bot
identity (both are 1), selection evaluates the child of arenaC1 — wins 1,
visits 1, parent visits 1 — to the flipped value 0, not to the unflipped
value 1 that the claim requires when the mover equals the bot. -/
theorem claim_C1_counterexample :
    boardOnes.current_player 0 = 1 ∧
      selectionUcb arenaC1 boardOnes 0 1 1 = 0 ∧
      ucb (getNode arenaC1 1).wins (getNode arenaC1 1).visits 1 false = 1 ∧
      selectionUcb arenaC1 boardOnes 0 1 1 ≠
        ucb (getNode arenaC1 1).wins (getNode arenaC1 1).visits 1 false := by
  have h1 : (getNode arenaC1 1).wins = 1 := rfl
  have h2 : (getNode arenaC1 1).visits = 1 := rfl
  refine ⟨rfl, selectionUcb_arenaC1, ?_, ?_⟩
  · rw [h1, h2]; exact ucb_unflipped_one
  · rw [h1, h2, selectionUcb_arenaC1, ucb_unflipped_one]
    norm_num

/-- Claim C1 (amended): during selection, whenever UCB is evaluated on a child
with positive visits and positive parent visits, the raw win rate is flipped
to 1 - winRate exactly when the mover-to-act at the parent state EQUALS the
bot identity captured at the start of the decision; when the mover differs
from the bot, the rate is left unflipped. -/
theorem claim_C1_selection_flip {S A : Type} (t : Arena A) (b : Board S A)
    (s : S) (bot_identity childIdx : ℕ)
    (hv : 0 < (getNode t childIdx).visits)
    (hp : 0 < (getNode t ((getNode t childIdx).parent.getD t.length)).visits) :
    (b.current_player s = bot_identity →
      selectionUcb t b s bot_identity childIdx =
        (1 - ((getNode t childIdx).wins : ℝ) / ((getNode t childIdx).visits : ℝ)) +
          Real.sqrt 2 * Real.sqrt
            (Real.log ((getNode t ((getNode t childIdx).parent.getD t.length)).visits : ℝ) /
              ((getNode t childIdx).visits : ℝ))) ∧
    (b.current_player s ≠ bot_identity →
      selectionUcb t b s bot_identity childIdx =
        ((getNode t childIdx).wins : ℝ) / ((getNode t childIdx).visits : ℝ) +
          Real.sqrt 2 * Real.sqrt
            (Real.log ((getNode t ((getNode t childIdx).parent.getD t.length)).visits : ℝ) /
              ((getNode t childIdx).visits : ℝ))) := by
  constructor
  · intro h
    have hb : (bot_identity == b.current_player s) = true := by
      rw [h]
      simp
    simp only [selectionUcb, ucbAt, ucb, hb, if_true]
  · intro h
    have hb : (bot_identity == b.current_player s) = false := by
      simp only [beq_eq_false_iff_ne, ne_eq]
      intro he
      exact h (he ▸ rfl)
    simp only [selectionUcb, ucbAt, ucb, hb, Bool.false_eq_true, if_false]

/-- Witness for the amended claim C1 at the arenaC1 data, where the mover
equals the bot, so the flipped branch applies. -/
theorem claim_C1_selection_flip_witness :
    selectionUcb arenaC1 boardOnes 0 1 1 =
      (1 - ((getNode arenaC1 1).wins : ℝ) / ((getNode arenaC1 1).visits : ℝ)) +
        Real.sqrt 2 * Real.sqrt
          (Real.log ((getNode arenaC1 ((getNode arenaC1 1).parent.getD arenaC1.length)).visits : ℝ) /
            ((getNode arenaC1 1).visits : ℝ)) :=
  (claim_C1_selection_flip arenaC1 boardOnes 0 1 1 (by decide) (by decide)).1 rfl

/-- Divergence of the selection loop at a fixed node and state: no amount of
fuel lets traverse_nodes return. -/
def traverseDiverges {S A : Type} (t : Arena A) (b : Board S A)
    (bot_identity : ℕ) (i : ℕ) (s : S) : Prop :=
  ∀ fuel, traverse_nodes t b bot_identity fuel i s = none

/-- Helper for claim C3: when a node has no untried actions, has children and
no child UCB value strictly exceeds the sentinel -9999, the selection pass
returns no best child, the loop body leaves node and state unchanged and the
loop condition still holds, so traverse_nodes never returns. -/
theorem traverse_nodes_stuck {S A : Type} (t : Arena A) (b : Board S A)
    (bot_identity : ℕ) (i : ℕ) (s : S)
    (hu : (getNode t i).untried_actions = [])
    (hc : (getNode t i).child_nodes ≠ [])
    (hall : ∀ ac ∈ (getNode t i).child_nodes, selectionUcb t b s bot_identity ac.2 ≤ -9999) :
    traverseDiverges t b bot_identity i s := by
  have hpass : (selectPass t b s bot_identity (getNode t i).child_nodes).2 = none := by
    unfold selectPass scanBest
    rw [scanFold_stay _ _ _ _ _ hall]
  intro fuel
  induction fuel with
  | zero => rfl
  | succ n ih =>
    simp only [traverse_nodes, hu, hpass, List.isEmpty_nil, Bool.true_and]
    have hce : (getNode t i).child_nodes.isEmpty = false := by
      cases hl : (getNode t i).child_nodes with
      | nil => exact absurd hl hc
      | cons a l => rfl
    rw [hce]
    simpa using ih

/-- Value computed by the selection loop for the child of arenaC3 when the bot
identity is 1 and the mover is also 1: the flipped win rate 1 - 20000 plus the
vanishing exploration term. -/
theorem selectionUcb_arenaC3 : selectionUcb arenaC3 boardOnes 0 1 1 = -19999 := by
  have h : selectionUcb arenaC3 boardOnes 0 1 1 = ucb 20000 1 1 true := rfl
  rw [h]
  simp only [ucb]
  norm_num [Real.log_one, Real.sqrt_zero]

/-- Claim C3 counterexample: the root of arenaC3 has a child and no untried
actions, the selection pass fails to improve on the sentinel (the only child
evaluates to -19999 ≤ -9999, so no best child is found), and traverse_nodes
does not terminate and return the node unchanged — it loops forever, returning
none at every fuel. -/
theorem claim_C3_counterexample :
    (getNode arenaC3 0).untried_actions = [] ∧
      (getNode arenaC3 0).child_nodes ≠ [] ∧
      (selectPass arenaC3 boardOnes 0 1 (getNode arenaC3 0).child_nodes).2 = none ∧
      traverseDiverges arenaC3 boardOnes 1 0 0 := by
  have hall : ∀ ac ∈ (getNode arenaC3 0).child_nodes,
      selectionUcb arenaC3 boardOnes 0 1 ac.2 ≤ -9999 := by
    intro ac hac
    have hac2 : ac = (5, 1) := by
      simpa [getNode, arenaC3] using hac
    rw [hac2, selectionUcb_arenaC3]
    norm_num
  refine ⟨rfl, by decide, ?_, traverse_nodes_stuck _ _ _ _ _ rfl (by decide) hall⟩
  unfold selectPass scanBest
  rw [scanFold_stay _ _ _ _ _ hall]

/-- Claim C3 (amended): for every node with at least one child and no untried
actions, if the selection pass over its children fails to improve on the
initialized sentinel (no child UCB value strictly exceeds -9999), the loop
body leaves node and state unchanged, the loop condition still holds and tree
traversal never terminates, instead of returning the node unchanged. -/
theorem claim_C3_no_improvement_diverges {S A : Type} (t : Arena A)
    (b : Board S A) (bot_identity : ℕ) (i : ℕ) (s : S)
    (hu : (getNode t i).untried_actions = [])
    (hc : (getNode t i).child_nodes ≠ [])
    (hall : ∀ ac ∈ (getNode t i).child_nodes, selectionUcb t b s bot_identity ac.2 ≤ -9999) :
    traverseDiverges t b bot_identity i s :=
  traverse_nodes_stuck t b bot_identity i s hu hc hall

/-- Witness for the amended claim C3 at the arenaC3 data. -/
theorem claim_C3_no_improvement_diverges_witness :
    traverseDiverges arenaC3 boardOnes 1 0 0 :=
  claim_C3_no_improvement_diverges arenaC3 boardOnes 1 0 0 rfl (by decide)
    (by
      intro ac hac
      have hac2 : ac = (5, 1) := by
        simpa [getNode, arenaC3] using hac
      rw [hac2, selectionUcb_arenaC3]
      norm_num)

/-- Conditional contribution with a non-negative payoff is non-negative. -/
theorem ite_zero_nonneg {c : Prop} [Decidable c] (k : ℤ) (hk : 0 ≤ k) :
    0 ≤ if c then k else 0 := by
  split
  · exact hk
  · exact le_refl 0

/-- Conditional contribution with a non-positive payoff is non-positive. -/
theorem ite_zero_nonpos {c : Prop} [Decidable c] (k : ℤ) (hk : k ≤ 0) :
    (if c then k else 0) ≤ 0 := by
  split
  · exact hk
  · exact le_refl 0

/-- Lower bound of the heuristic of mcts_modified.py: the favored branch is a
sum of non-negative bonuses and the unfavored branch of penalties totalling at
most 11600 in magnitude. -/
theorem heuristic_lower_bound {S : Type} (b : Board S Act) (st : S)
    (opponent currentPlayer : ℕ) (a : Act) :
    -11600 ≤ MctsModified.heuristic b st opponent currentPlayer a := by
  unfold MctsModified.heuristic
  split
  · have h1 : (0:ℤ) ≤ if (b.win_values st).isSome then 100000000000 else 0 := by
      split <;> norm_num
    have h2 : (0:ℤ) ≤ if actTail a = (1, 1) then 100000000 else 0 := by
      split <;> norm_num
    have h3 : (0:ℤ) ≤ if actTail a ∈ [(0, 0), (0, 2), (2, 0), (2, 2)] then 500 else 0 := by
      split <;> norm_num
    have h4 : (0:ℤ) ≤ if actTail a ∈ [(1, 0), (0, 1), (1, 2), (2, 1)] then 100 else 0 := by
      split <;> norm_num
    linarith
  · have h1 : (-10000 : ℤ) ≤ if MctsModified.winTruthy (b.win_values st) then -10000 else 0 := by
      split <;> norm_num
    have h2 : (-1000 : ℤ) ≤ if actTail a = (1, 1) then -1000 else 0 := by
      split <;> norm_num
    have h3 : (-500 : ℤ) ≤ if actTail a ∈ [(0, 0), (0, 2), (2, 0), (2, 2)] then -500 else 0 := by
      split <;> norm_num
    have h4 : (-100 : ℤ) ≤ if actTail a ∈ [(1, 0), (0, 1), (1, 2), (2, 1)] then -100 else 0 := by
      split <;> norm_num
    linarith

/-- Tiny two-move adapter used to run the greedy rollout concretely: player 1
moves at state 0 (a corner action), player 2 moves at state 1 (the center
action), state 2 is terminal. States count the moves played so far. -/
def boardC2 : Board ℕ Act :=
  ⟨fun s => if s = 0 then [(0, 0, 0, 0)] else if s = 1 then [(0, 0, 1, 1)] else [],
   fun s _ => s + 1,
   fun s => decide (2 ≤ s),
   fun s => if s = 0 then 1 else 2,
   fun s => if 2 ≤ s then some (fun p => if p = 1 then 1 else 0) else none,
   fun _ => none⟩

/-- Claim C2 counterexample: the greedy rollout from state 0 of boardC2
captures (current player, opponent) = (1, 2) once, reaches state 1 whose
actual mover is the captured opponent 2, and there scores the center-cell
action with the positive bonus 100000000 — the per-action adjustment is not
applied with negative sign for the non-favored mover, because the heuristic
is still called with the pair captured at rollout start. -/
theorem claim_C2_counterexample :
    MctsModified.rolloutCaptured boardC2 0 = (1, 2) ∧
      boardC2.current_player 1 = 2 ∧
      MctsModified.rollout boardC2 5 0 =
        some ([(0, 0, 0, 0), (0, 0, 1, 1)], 2) ∧
      MctsModified.heuristic boardC2 (boardC2.next_state 1 (0, 0, 1, 1)) 2 1 (0, 0, 1, 1)
        = 100000000 ∧
      ¬ MctsModified.heuristic boardC2 (boardC2.next_state 1 (0, 0, 1, 1)) 2 1 (0, 0, 1, 1)
        < 0 := by
  decide

/-- Claim C2 (amended): the heuristic applies its per-action adjustments with
positive sign exactly when its currentPlayer argument differs from its
opponent argument and with negative sign when the two coincide; the rollout
always calls it with the (current player, opponent) pair captured once at
rollout start, whose components always differ, so during a rollout every
adjustment is applied with positive sign at every step, regardless of which
side actually makes the move. -/
theorem claim_C2_heuristic_signs (S : Type) :
    (∀ (b : Board S Act) (s : S),
      (MctsModified.rolloutCaptured b s).1 ≠ (MctsModified.rolloutCaptured b s).2) ∧
    (∀ (b : Board S Act) (s : S) (st : S) (a : Act),
      0 ≤ MctsModified.heuristic b st (MctsModified.rolloutCaptured b s).2
            (MctsModified.rolloutCaptured b s).1 a) ∧
    (∀ (b : Board S Act) (st : S) (p : ℕ) (a : Act),
      MctsModified.heuristic b st p p a ≤ 0) := by
  have hne : ∀ (b : Board S Act) (s : S),
      (MctsModified.rolloutCaptured b s).1 ≠ (MctsModified.rolloutCaptured b s).2 := by
    intro b s
    unfold MctsModified.rolloutCaptured
    by_cases h : b.current_player s = 2
    · rw [h]
      norm_num
    · simp only [if_neg h]
      exact h
  refine ⟨hne, ?_, ?_⟩
  · intro b s st a
    unfold MctsModified.heuristic
    rw [if_pos (hne b s)]
    have h1 : (0:ℤ) ≤ if (b.win_values st).isSome then 100000000000 else 0 :=
      ite_zero_nonneg _ (by norm_num)
    have h2 : (0:ℤ) ≤ if actTail a = (1, 1) then 100000000 else 0 :=
      ite_zero_nonneg _ (by norm_num)
    have h3 : (0:ℤ) ≤ if actTail a ∈ [(0, 0), (0, 2), (2, 0), (2, 2)] then 500 else 0 :=
      ite_zero_nonneg _ (by norm_num)
    have h4 : (0:ℤ) ≤ if actTail a ∈ [(1, 0), (0, 1), (1, 2), (2, 1)] then 100 else 0 :=
      ite_zero_nonneg _ (by norm_num)
    linarith
  · intro b st p a
    unfold MctsModified.heuristic
    rw [if_neg (by intro h; exact h rfl)]
    have h1 : (if MctsModified.winTruthy (b.win_values st) then (-10000 : ℤ) else 0) ≤ 0 :=
      ite_zero_nonpos _ (by norm_num)
    have h2 : (if actTail a = (1, 1) then (-1000 : ℤ) else 0) ≤ 0 :=
      ite_zero_nonpos _ (by norm_num)
    have h3 : (if actTail a ∈ [(0, 0), (0, 2), (2, 0), (2, 2)] then (-500 : ℤ) else 0) ≤ 0 :=
      ite_zero_nonpos _ (by norm_num)
    have h4 : (if actTail a ∈ [(1, 0), (0, 1), (1, 2), (2, 1)] then (-100 : ℤ) else 0) ≤ 0 :=
      ite_zero_nonpos _ (by norm_num)
    linarith

/-- Claim C9: the greedy heuristic rollout is deterministic — two runs on the
same state with the same adapter return the same action sequence and terminal
state — and each step picks the first legal action attaining the maximal
heuristic score under the strictly-greater comparison (first-seen tie-break):
earlier actions score strictly less, later ones at most as much. -/
theorem claim_C9_greedy_rollout_deterministic (S : Type) :
    (∀ (b : Board S Act) (fuel : ℕ) (s : S) (r1 r2 : Option (List Act × S)),
      MctsModified.rollout b fuel s = r1 → MctsModified.rollout b fuel s = r2 →
        r1 = r2) ∧
    (∀ (b : Board S Act) (opponent current_player : ℕ) (s : S),
      b.legal_actions s ≠ [] →
      ∃ l1 x l2, b.legal_actions s = l1 ++ x :: l2 ∧
        (MctsModified.greedyStep b opponent current_player s).2 = some x ∧
        (∀ y ∈ l1,
          MctsModified.heuristic b (b.next_state s y) opponent current_player y <
            MctsModified.heuristic b (b.next_state s x) opponent current_player x) ∧
        (∀ y ∈ l2,
          MctsModified.heuristic b (b.next_state s y) opponent current_player y ≤
            MctsModified.heuristic b (b.next_state s x) opponent current_player x)) := by
  constructor
  · intro b fuel s r1 r2 h1 h2
    rw [← h1, ← h2]
  · intro b opponent current_player s hne
    have hex : ∃ x ∈ b.legal_actions s,
        (-9999999999999999999999 : ℤ) <
          MctsModified.heuristic b (b.next_state s x) opponent current_player x := by
      cases hl : b.legal_actions s with
      | nil => exact absurd hl hne
      | cons a l =>
        refine ⟨a, List.mem_cons_self a l, ?_⟩
        have := heuristic_lower_bound b (b.next_state s a) opponent current_player a
        linarith
    rcases scanFold_firstMax
        (fun action => MctsModified.heuristic b (b.next_state s action) opponent current_player action)
        (fun action => action) (b.legal_actions s) (-9999999999999999999999) none hex with
      ⟨l1, x, l2, heq, hfold, hgt, hall1, hall2⟩
    refine ⟨l1, x, l2, heq, ?_, hall1, hall2⟩
    unfold MctsModified.greedyStep scanBest
    rw [hfold]

/-- Witness for claim C9 at boardC2 state 0, where the single legal action is
returned as the greedy choice. -/
theorem claim_C9_greedy_rollout_deterministic_witness :
    ∃ l1 x l2, boardC2.legal_actions 0 = l1 ++ x :: l2 ∧
      (MctsModified.greedyStep boardC2 2 1 0).2 = some x ∧
      (∀ y ∈ l1,
        MctsModified.heuristic boardC2 (boardC2.next_state 0 y) 2 1 y <
          MctsModified.heuristic boardC2 (boardC2.next_state 0 x) 2 1 x) ∧
      (∀ y ∈ l2,
        MctsModified.heuristic boardC2 (boardC2.next_state 0 y) 2 1 y ≤
          MctsModified.heuristic boardC2 (boardC2.next_state 0 x) 2 1 x) :=
  (claim_C9_greedy_rollout_deterministic ℕ).2 boardC2 2 1 0 (by decide)

/-- Reading the index just written by an in-range arena update returns the
written node. -/
theorem getNode_set_self {A : Type} (t : Arena A) (i : ℕ) (nd : MCTSNode A)
    (h : i < t.length) : getNode (t.set i nd) i = nd := by
  unfold getNode
  rw [List.getElem?_set_self]
  simp [h]
  exact h

/-- Reading any other index is unaffected by an arena update. -/
theorem getNode_set_ne {A : Type} (t : Arena A) (i j : ℕ) (nd : MCTSNode A)
    (h : i ≠ j) : getNode (t.set i nd) j = getNode t j := by
  unfold getNode
  rw [List.getElem?_set_ne h]

/-- Reading an in-range index is unaffected by appending nodes. -/
theorem getNode_append_lt {A : Type} (t t2 : Arena A) (j : ℕ)
    (h : j < t.length) : getNode (t ++ t2) j = getNode t j := by
  unfold getNode
  rw [List.getElem?_append]
  simp [h]

/-- Reading the index one past an arena returns a freshly appended node. -/
theorem getNode_append_self {A : Type} (t : Arena A) (nd : MCTSNode A) :
    getNode (t ++ [nd]) t.length = nd := by
  unfold getNode
  simp

/-- Three-node arena realising the decision-extraction scenario of the spec: a
root with exactly two children, the first with wins 8 of 10 visits (action
10), the second with wins 1 of 10 visits (action 20). -/
def arenaC5 : Arena ℕ :=
  [⟨none, none, [(10, 1), (20, 2)], [], 20, 9⟩,
   ⟨some 0, some 10, [], [], 10, 8⟩,
   ⟨some 0, some 20, [], [], 10, 1⟩]

/-- Evaluation of decision extraction on arenaC5: the first child wins with
rate 8/10 against 1/10. Rational comparisons are settled by norm_num because
the order on the rationals is not kernel-reducible here. -/
theorem get_best_action_arenaC5 : get_best_action arenaC5 0 = some 10 := by
  have hc : (getNode arenaC5 0).child_nodes = [(10, 1), (20, 2)] := rfl
  have h1w : (getNode arenaC5 1).wins = 8 := rfl
  have h1v : (getNode arenaC5 1).visits = 10 := rfl
  have h2w : (getNode arenaC5 2).wins = 1 := rfl
  have h2v : (getNode arenaC5 2).visits = 10 := rfl
  unfold get_best_action scanBest
  rw [hc]
  simp only [List.foldl_cons, List.foldl_nil, h1w, h1v, h2w, h2v]
  norm_num

/-- Claim C5: on a root whose children all have positive visits,
get_best_action returns the action of the first child (in iteration order)
attaining the strictly highest wins / visits ratio — earlier children rate
strictly lower, later ones at most as high; on the concrete two-child root of
arenaC5 (8/10 before 1/10) it returns the first action; and it returns none
whenever the root has no children. -/
theorem claim_C5_get_best_action (A : Type) :
    (∀ (t : Arena A) (rootIdx : ℕ),
      (getNode t rootIdx).child_nodes ≠ [] →
      (∀ ac ∈ (getNode t rootIdx).child_nodes, 0 < (getNode t ac.2).visits) →
      ∃ l1 x l2, (getNode t rootIdx).child_nodes = l1 ++ x :: l2 ∧
        get_best_action t rootIdx = some x.1 ∧
        (∀ y ∈ l1,
          ((getNode t y.2).wins : ℚ) / ((getNode t y.2).visits : ℚ) <
            ((getNode t x.2).wins : ℚ) / ((getNode t x.2).visits : ℚ)) ∧
        (∀ y ∈ l2,
          ((getNode t y.2).wins : ℚ) / ((getNode t y.2).visits : ℚ) ≤
            ((getNode t x.2).wins : ℚ) / ((getNode t x.2).visits : ℚ))) ∧
    get_best_action arenaC5 0 = some 10 ∧
    (∀ (t : Arena A) (rootIdx : ℕ), (getNode t rootIdx).child_nodes = [] →
      get_best_action t rootIdx = none) := by
  refine ⟨?_, get_best_action_arenaC5, ?_⟩
  · intro t rootIdx hne hv
    have hex : ∃ x ∈ (getNode t rootIdx).child_nodes,
        (-9999 : ℚ) < ((getNode t x.2).wins : ℚ) / ((getNode t x.2).visits : ℚ) := by
      cases hl : (getNode t rootIdx).child_nodes with
      | nil => exact absurd hl hne
      | cons a l =>
        refine ⟨a, List.mem_cons_self a l, ?_⟩
        have h0 : (0:ℚ) ≤ ((getNode t a.2).wins : ℚ) / ((getNode t a.2).visits : ℚ) :=
          div_nonneg (Nat.cast_nonneg _) (Nat.cast_nonneg _)
        linarith
    rcases scanFold_firstMax
        (fun ac => ((getNode t ac.2).wins : ℚ) / ((getNode t ac.2).visits : ℚ))
        (fun ac => ac.1) ((getNode t rootIdx).child_nodes) (-9999) none hex with
      ⟨l1, x, l2, heq, hfold, hgt, hall1, hall2⟩
    refine ⟨l1, x, l2, heq, ?_, hall1, hall2⟩
    unfold get_best_action scanBest
    rw [hfold]
  · intro t rootIdx hempty
    unfold get_best_action scanBest
    rw [hempty]
    rfl

/-- Witness for claim C5 at the two-child root of arenaC5. -/
theorem claim_C5_get_best_action_witness :
    ∃ l1 x l2, (getNode arenaC5 0).child_nodes = l1 ++ x :: l2 ∧
      get_best_action arenaC5 0 = some x.1 ∧
      (∀ y ∈ l1,
        ((getNode arenaC5 y.2).wins : ℚ) / ((getNode arenaC5 y.2).visits : ℚ) <
          ((getNode arenaC5 x.2).wins : ℚ) / ((getNode arenaC5 x.2).visits : ℚ)) ∧
      (∀ y ∈ l2,
        ((getNode arenaC5 y.2).wins : ℚ) / ((getNode arenaC5 y.2).visits : ℚ) ≤
          ((getNode arenaC5 x.2).wins : ℚ) / ((getNode arenaC5 x.2).visits : ℚ)) :=
  (claim_C5_get_best_action ℕ).1 arenaC5 0 (by decide) (by decide)

/-- Explicit description of expand_leaf on a node with a non-empty untried
sequence written as init ++ [a]: the popped action is the last element a, the
node keeps everything except untried_actions (now init) and child_nodes (one
appended entry keyed by a), and the arena grows by exactly the new child. -/
theorem expand_leaf_concat {S A : Type} (t : Arena A) (i : ℕ) (b : Board S A)
    (s : S) (init : List A) (a : A)
    (hu : (getNode t i).untried_actions = init ++ [a]) :
    expand_leaf t i b s =
      (some t.length, b.next_state s a,
        (t.set i
          { getNode t i with
            untried_actions := init,
            child_nodes := (getNode t i).child_nodes ++ [(a, t.length)] })
          ++ [⟨some i, some a, [], b.legal_actions (b.next_state s a), 0, 0⟩]) := by
  have hne : (init ++ [a]).isEmpty = false := by cases init <;> rfl
  simp only [expand_leaf]
  rw [hu, hne]
  simp only [Bool.false_eq_true, if_false, List.getLast?_concat,
    List.dropLast_concat]

/-- Claim C10: on a node with a non-empty untried-action sequence, expand_leaf
mutates only that node s untried_actions (removing exactly the last element)
and its children mapping (appending exactly one entry keyed by the removed
action, valued by the new child index); the node s visits, wins, parent and
parent_action, and every other pre-existing node of the arena, are left
unchanged, and the new child carries fresh statistics. -/
theorem claim_C10_expand_leaf_frame (S A : Type) (t : Arena A) (i : ℕ)
    (b : Board S A) (s : S) (init : List A) (a : A)
    (hi : i < t.length) (hu : (getNode t i).untried_actions = init ++ [a]) :
    expand_leaf t i b s =
      (some t.length, b.next_state s a,
        (t.set i
          { getNode t i with
            untried_actions := init,
            child_nodes := (getNode t i).child_nodes ++ [(a, t.length)] })
          ++ [⟨some i, some a, [], b.legal_actions (b.next_state s a), 0, 0⟩]) ∧
    (∀ j, j < t.length → j ≠ i →
      getNode (expand_leaf t i b s).2.2 j = getNode t j) ∧
    (getNode (expand_leaf t i b s).2.2 i).parent = (getNode t i).parent ∧
    (getNode (expand_leaf t i b s).2.2 i).parent_action = (getNode t i).parent_action ∧
    (getNode (expand_leaf t i b s).2.2 i).visits = (getNode t i).visits ∧
    (getNode (expand_leaf t i b s).2.2 i).wins = (getNode t i).wins ∧
    (getNode (expand_leaf t i b s).2.2 i).untried_actions = init ∧
    (getNode (expand_leaf t i b s).2.2 i).child_nodes
      = (getNode t i).child_nodes ++ [(a, t.length)] ∧
    getNode (expand_leaf t i b s).2.2 t.length
      = ⟨some i, some a, [], b.legal_actions (b.next_state s a), 0, 0⟩ := by
  have hcore := expand_leaf_concat t i b s init a hu
  have hgi : getNode (expand_leaf t i b s).2.2 i =
      { getNode t i with
        untried_actions := init,
        child_nodes := (getNode t i).child_nodes ++ [(a, t.length)] } := by
    rw [hcore]
    rw [getNode_append_lt]
    · exact getNode_set_self t i _ hi
    · rw [List.length_set]
      exact hi
  refine ⟨hcore, ?_, ?_, ?_, ?_, ?_, ?_, ?_, ?_⟩
  · intro j hj hne
    rw [hcore]
    rw [getNode_append_lt]
    · exact getNode_set_ne t i j _ (fun he => hne he.symm)
    · rw [List.length_set]
      exact hj
  · rw [hgi]
  · rw [hgi]
  · rw [hgi]
  · rw [hgi]
  · rw [hgi]
  · rw [hgi]
  · rw [hcore]
    have h2 := getNode_append_self
      (t.set i
        { getNode t i with
          untried_actions := init,
          child_nodes := (getNode t i).child_nodes ++ [(a, t.length)] })
      ⟨some i, some a, [], b.legal_actions (b.next_state s a), 0, 0⟩
    rw [List.length_set] at h2
    exact h2

/-- One-node arena holding a root with the single untried action 3 and no
children; used to run expand_leaf concretely. -/
def arenaC10 : Arena ℕ :=
  [⟨none, none, [], [3], 0, 0⟩]

/-- Witness for claim C10: expanding the root of arenaC10 pops action 3,
creates child index 1 and leaves everything else unchanged. -/
theorem claim_C10_expand_leaf_frame_witness :
    expand_leaf arenaC10 0 boardOnes 7 =
      (some arenaC10.length, boardOnes.next_state 7 3,
        (arenaC10.set 0
          { getNode arenaC10 0 with
            untried_actions := [],
            child_nodes := (getNode arenaC10 0).child_nodes ++ [(3, arenaC10.length)] })
          ++ [⟨some 0, some 3, [], boardOnes.legal_actions (boardOnes.next_state 7 3), 0, 0⟩]) ∧
    (∀ j, j < arenaC10.length → j ≠ 0 →
      getNode (expand_leaf arenaC10 0 boardOnes 7).2.2 j = getNode arenaC10 j) ∧
    (getNode (expand_leaf arenaC10 0 boardOnes 7).2.2 0).parent = (getNode arenaC10 0).parent ∧
    (getNode (expand_leaf arenaC10 0 boardOnes 7).2.2 0).parent_action
      = (getNode arenaC10 0).parent_action ∧
    (getNode (expand_leaf arenaC10 0 boardOnes 7).2.2 0).visits = (getNode arenaC10 0).visits ∧
    (getNode (expand_leaf arenaC10 0 boardOnes 7).2.2 0).wins = (getNode arenaC10 0).wins ∧
    (getNode (expand_leaf arenaC10 0 boardOnes 7).2.2 0).untried_actions = [] ∧
    (getNode (expand_leaf arenaC10 0 boardOnes 7).2.2 0).child_nodes
      = (getNode arenaC10 0).child_nodes ++ [(3, arenaC10.length)] ∧
    getNode (expand_leaf arenaC10 0 boardOnes 7).2.2 arenaC10.length
      = ⟨some 0, some 3, [], boardOnes.legal_actions (boardOnes.next_state 7 3), 0, 0⟩ :=
  claim_C10_expand_leaf_frame ℕ ℕ arenaC10 0 boardOnes 7 [] 3 (by decide) (by decide)

/-- Reading past the end of the arena yields the placeholder node. -/
theorem getNode_oob {A : Type} (t : Arena A) (i : ℕ) (h : t.length ≤ i) :
    getNode t i = dummyNode := by
  unfold getNode
  rw [List.getElem?_eq_none h]
  rfl

/-- Structural part of a node: everything except the visit and win counters. -/
def nodeShape {A : Type} (nd : MCTSNode A) :
    Option ℕ × Option A × List (A × ℕ) × List A :=
  (nd.parent, nd.parent_action, nd.child_nodes, nd.untried_actions)

theorem nodeShape_parent {A : Type} {n1 n2 : MCTSNode A}
    (h : nodeShape n1 = nodeShape n2) : n1.parent = n2.parent :=
  congrArg (fun q => q.1) h

theorem nodeShape_parent_action {A : Type} {n1 n2 : MCTSNode A}
    (h : nodeShape n1 = nodeShape n2) : n1.parent_action = n2.parent_action :=
  congrArg (fun q => q.2.1) h

theorem nodeShape_child_nodes {A : Type} {n1 n2 : MCTSNode A}
    (h : nodeShape n1 = nodeShape n2) : n1.child_nodes = n2.child_nodes :=
  congrArg (fun q => q.2.2.1) h

theorem nodeShape_untried {A : Type} {n1 n2 : MCTSNode A}
    (h : nodeShape n1 = nodeShape n2) : n1.untried_actions = n2.untried_actions :=
  congrArg (fun q => q.2.2.2) h

/-- Well-formedness of the arena as a rooted tree: the root is index 0 with no
parent, child edges point strictly upward in index order and are mirrored by
the parent back-references, every non-root node is registered in its parent
and the child index lists are duplicate-free. The engine establishes this for
the fresh root and every phase preserves it. -/
structure ArenaInv {A : Type} (t : Arena A) : Prop where
  nonempty : t ≠ []
  root_parent : (getNode t 0).parent = none
  child_edges : ∀ i, ∀ ac ∈ (getNode t i).child_nodes,
    i < ac.2 ∧ ac.2 < t.length ∧ (getNode t ac.2).parent = some i ∧
      (getNode t ac.2).parent_action = some ac.1
  parent_edges : ∀ j, 0 < j → j < t.length →
    ∃ p, (getNode t j).parent = some p ∧ p < j ∧
      ∃ a, (a, j) ∈ (getNode t p).child_nodes
  child_nodup : ∀ i, ((getNode t i).child_nodes.map (fun ac => ac.2)).Nodup

/-- Statistics invariant of the spec: wins never exceed visits anywhere in the
arena. -/
def statsInv {A : Type} (t : Arena A) : Prop :=
  ∀ j, j < t.length → (getNode t j).wins ≤ (getNode t j).visits

/-- The root still offers somewhere to go: an untried action or a child. This
holds for a fresh root over a non-terminal state and is never destroyed. -/
def rootAlive {A : Type} (t : Arena A) : Prop :=
  (getNode t 0).untried_actions ≠ [] ∨ (getNode t 0).child_nodes ≠ []

/-- Sum of the visit counters over the immediate children of the root. -/
def rootChildSum {A : Type} (t : Arena A) : ℕ :=
  ((getNode t 0).child_nodes.map (fun ac => (getNode t ac.2).visits)).sum

/-- Well-formedness only concerns lengths and node shapes, so it transfers
across any arena rewrite that preserves both. -/
theorem arenaInv_congr {A : Type} (t t2 : Arena A)
    (hlen : t2.length = t.length)
    (hshape : ∀ j, nodeShape (getNode t2 j) = nodeShape (getNode t j))
    (h : ArenaInv t) : ArenaInv t2 := by
  refine ⟨?_, ?_, ?_, ?_, ?_⟩
  · have h0 : 0 < t.length := List.length_pos.mpr h.nonempty
    exact List.ne_nil_of_length_pos (hlen ▸ h0)
  · rw [nodeShape_parent (hshape 0)]
    exact h.root_parent
  · intro i ac hmem
    rw [nodeShape_child_nodes (hshape i)] at hmem
    rcases h.child_edges i ac hmem with ⟨h1, h2, h3, h4⟩
    exact ⟨h1, hlen ▸ h2, (nodeShape_parent (hshape ac.2)).trans h3,
      (nodeShape_parent_action (hshape ac.2)).trans h4⟩
  · intro j hj hjl
    rcases h.parent_edges j hj (hlen ▸ hjl) with ⟨p, h1, h2, a, h3⟩
    exact ⟨p, (nodeShape_parent (hshape j)).trans h1, h2,
      a, (nodeShape_child_nodes (hshape p)) ▸ h3⟩
  · intro i
    rw [nodeShape_child_nodes (hshape i)]
    exact h.child_nodup i

/-- Overwriting a node with one of identical shape preserves every shape. -/
theorem getNode_set_stats_shape {A : Type} (t : Arena A) (i : ℕ)
    (nd : MCTSNode A) (hshape : nodeShape nd = nodeShape (getNode t i)) :
    ∀ j, nodeShape (getNode (t.set i nd) j) = nodeShape (getNode t j) := by
  intro j
  by_cases hij : i = j
  · subst hij
    by_cases hi : i < t.length
    · rw [getNode_set_self t i nd hi]
      exact hshape
    · rw [List.set_eq_of_length_le (le_of_not_lt hi)]
  · rw [getNode_set_ne t i j nd hij]

/-- Backpropagation preserves the length of the arena and the shape of every
node: it only touches the visit and win counters. -/
theorem backprop_shape {A : Type} (won : Bool) :
    ∀ (fuel : ℕ) (t : Arena A) (o : Option ℕ) (t2 : Arena A),
      backpropagate t won fuel o = some t2 →
      t2.length = t.length ∧ ∀ j, nodeShape (getNode t2 j) = nodeShape (getNode t j) := by
  intro fuel
  induction fuel with
  | zero =>
    intro t o t2 h
    cases o with
    | none =>
      simp only [backpropagate, Option.some_inj] at h
      subst h
      exact ⟨rfl, fun j => rfl⟩
    | some i =>
      simp only [backpropagate] at h
      exact Option.noConfusion h
  | succ n ih =>
    intro t o t2 h
    cases o with
    | none =>
      simp only [backpropagate, Option.some_inj] at h
      subst h
      exact ⟨rfl, fun j => rfl⟩
    | some i =>
      simp only [backpropagate] at h
      rcases ih _ _ _ h with ⟨hlen, hshape⟩
      constructor
      · rw [hlen, List.length_set]
      · intro j
        rw [hshape j]
        apply getNode_set_stats_shape
        rfl

/-- Backpropagation never decreases any visit counter. -/
theorem backprop_visits_mono {A : Type} (won : Bool) :
    ∀ (fuel : ℕ) (t : Arena A) (o : Option ℕ) (t2 : Arena A),
      backpropagate t won fuel o = some t2 →
      ∀ j, (getNode t j).visits ≤ (getNode t2 j).visits := by
  intro fuel
  induction fuel with
  | zero =>
    intro t o t2 h j
    cases o with
    | none =>
      simp only [backpropagate, Option.some_inj] at h
      subst h
      exact le_refl _
    | some i =>
      simp only [backpropagate] at h
      exact Option.noConfusion h
  | succ n ih =>
    intro t o t2 h j
    cases o with
    | none =>
      simp only [backpropagate, Option.some_inj] at h
      subst h
      exact le_refl _
    | some i =>
      simp only [backpropagate] at h
      refine le_trans ?_ (ih _ _ _ h j)
      by_cases hij : i = j
      · subst hij
        by_cases hi : i < t.length
        · rw [getNode_set_self t i _ hi]
          exact Nat.le_succ _
        · rw [List.set_eq_of_length_le (le_of_not_lt hi)]
      · rw [getNode_set_ne t i j _ hij]

/-- Backpropagation started at an in-range node strictly increases that node s
visit counter. -/
theorem backprop_start_visits {A : Type} (won : Bool) (fuel : ℕ) (t : Arena A)
    (i : ℕ) (t2 : Arena A) (hi : i < t.length)
    (h : backpropagate t won (fuel + 1) (some i) = some t2) :
    (getNode t i).visits + 1 ≤ (getNode t2 i).visits := by
  simp only [backpropagate] at h
  have := backprop_visits_mono won fuel _ _ _ h i
  rw [getNode_set_self t i _ hi] at this
  exact this

/-- Backpropagation preserves the statistics invariant: it adds one visit at
every node it touches and at most one win. -/
theorem backprop_statsInv {A : Type} (won : Bool) :
    ∀ (fuel : ℕ) (t : Arena A) (o : Option ℕ) (t2 : Arena A),
      statsInv t → backpropagate t won fuel o = some t2 → statsInv t2 := by
  intro fuel
  induction fuel with
  | zero =>
    intro t o t2 hs h
    cases o with
    | none =>
      simp only [backpropagate, Option.some_inj] at h
      subst h
      exact hs
    | some i =>
      simp only [backpropagate] at h
      exact Option.noConfusion h
  | succ n ih =>
    intro t o t2 hs h
    cases o with
    | none =>
      simp only [backpropagate, Option.some_inj] at h
      subst h
      exact hs
    | some i =>
      simp only [backpropagate] at h
      refine ih _ _ _ ?_ h
      intro j hj
      rw [List.length_set] at hj
      by_cases hij : i = j
      · subst hij
        have hi : i < t.length := hj
        rw [getNode_set_self t i _ hi]
        have := hs i hi
        cases won <;> simp <;> omega
      · rw [getNode_set_ne t i j _ hij]
        exact hs j hj

/-- Node with the statistics update backpropagation applies at every node of
the walk: one more visit, one more win exactly when won holds. -/
def bumped {A : Type} (nd : MCTSNode A) (won : Bool) : MCTSNode A :=
  { nd with visits := nd.visits + 1, wins := nd.wins + if won then 1 else 0 }

/-- Bumping the visit counter of node j by one changes a visit sum over any
child list by the number of occurrences of j among its indices. -/
theorem sum_visits_set {A : Type} (t : Arena A) (j : ℕ) (nd : MCTSNode A)
    (hj : j < t.length) (hv : nd.visits = (getNode t j).visits + 1)
    (l : List (A × ℕ)) :
    (l.map (fun ac => (getNode (t.set j nd) ac.2).visits)).sum
      = (l.map (fun ac => (getNode t ac.2).visits)).sum
        + (l.map (fun ac => ac.2)).count j := by
  induction l with
  | nil => rfl
  | cons hd tl ih =>
    simp only [List.map_cons, List.sum_cons, List.count_cons]
    by_cases hc : hd.2 = j
    · rw [hc, getNode_set_self t j nd hj, hv]
      simp only [beq_self_eq_true, if_true]
      omega
    · rw [getNode_set_ne t j hd.2 nd (fun he => hc he.symm),
        beq_eq_false_iff_ne.mpr hc]
      simp only [Bool.false_eq_true, if_false]
      omega

/-- Backpropagation from an in-range node adds exactly one to the sum of the
root children visit counters, except when started at the root itself (where
the walk touches no root child). On a well-formed arena the walk follows the
unique parent chain, which crosses the root child list exactly once. -/
theorem backprop_rootChildSum {A : Type} (won : Bool) :
    ∀ (fuel : ℕ) (t : Arena A) (j : ℕ) (t2 : Arena A),
      ArenaInv t → j < t.length →
      backpropagate t won fuel (some j) = some t2 →
      rootChildSum t2 = rootChildSum t + (if j = 0 then 0 else 1) := by
  intro fuel
  induction fuel with
  | zero =>
    intro t j t2 _ _ h
    simp only [backpropagate] at h
    exact Option.noConfusion h
  | succ n ih =>
    intro t j t2 hInv hj h
    simp only [backpropagate] at h
    have h2 : backpropagate (t.set j (bumped (getNode t j) won)) won n
        (getNode t j).parent = some t2 := h
    cases hp : (getNode t j).parent with
    | none =>
      have hj0 : j = 0 := by
        by_contra hne
        rcases hInv.parent_edges j (Nat.pos_of_ne_zero hne) hj with ⟨p, hpp, _, _⟩
        rw [hp] at hpp
        exact Option.noConfusion hpp
      subst hj0
      rw [hp] at h2
      simp only [backpropagate, Option.some_inj] at h2
      subst h2
      rw [if_pos rfl]
      have hch : (getNode (t.set 0 (bumped (getNode t 0) won)) 0).child_nodes
          = (getNode t 0).child_nodes :=
        nodeShape_child_nodes (getNode_set_stats_shape t 0 (bumped (getNode t 0) won) rfl 0)
      have hcount : (((getNode t 0).child_nodes.map (fun ac => ac.2)).count 0) = 0 := by
        rw [List.count_eq_zero]
        intro hmem
        rcases List.mem_map.mp hmem with ⟨ac, hac, hac2⟩
        have h1 := (hInv.child_edges 0 ac hac).1
        omega
      unfold rootChildSum
      rw [hch, sum_visits_set t 0 (bumped (getNode t 0) won) hj rfl, hcount]
    | some p =>
      rw [hp] at h2
      have hj0 : j ≠ 0 := by
        intro he
        subst he
        rw [hInv.root_parent] at hp
        exact Option.noConfusion hp
      rcases hInv.parent_edges j (Nat.pos_of_ne_zero hj0) hj with ⟨p2, hpp, hplt, a, hreg⟩
      rw [hp] at hpp
      have hpe : p = p2 := by
        injection hpp
      subst hpe
      have hsum2 := ih (t.set j (bumped (getNode t j) won)) p t2
        (arenaInv_congr t (t.set j (bumped (getNode t j) won))
          (List.length_set t j (bumped (getNode t j) won))
          (getNode_set_stats_shape t j (bumped (getNode t j) won) rfl) hInv)
        (by rw [List.length_set]; omega) h2
      have hsum1 : rootChildSum (t.set j (bumped (getNode t j) won))
          = rootChildSum t + (if p = 0 then 1 else 0) := by
        have hch : (getNode (t.set j (bumped (getNode t j) won)) 0).child_nodes
            = (getNode t 0).child_nodes :=
          nodeShape_child_nodes (getNode_set_stats_shape t j (bumped (getNode t j) won) rfl 0)
        unfold rootChildSum
        rw [hch, sum_visits_set t j (bumped (getNode t j) won) hj rfl]
        congr 1
        by_cases hpz : p = 0
        · subst hpz
          rw [if_pos rfl]
          apply List.count_eq_one_of_mem (hInv.child_nodup 0)
          exact List.mem_map.mpr ⟨(a, j), hreg, rfl⟩
        · rw [if_neg hpz, List.count_eq_zero]
          intro hmem
          rcases List.mem_map.mp hmem with ⟨ac, hac, hac2⟩
          have h3 := (hInv.child_edges 0 ac hac).2.2.1
          rw [hac2, hp] at h3
          exact hpz (Option.some_inj.mp h3)
      rw [hsum2, hsum1, if_neg hj0]
      by_cases hpz : p = 0
      · rw [if_pos hpz, if_pos hpz]
      · rw [if_neg hpz, if_neg hpz]

/-- A best child delivered by the selection pass is one of the scanned
children. -/
theorem selectPass_mem {S A : Type} (t : Arena A) (b : Board S A) (s : S)
    (bot_identity : ℕ) (children : List (A × ℕ)) (j : ℕ)
    (h : (selectPass t b s bot_identity children).2 = some j) :
    ∃ ac ∈ children, ac.2 = j := by
  unfold selectPass scanBest at h
  rcases scanFold_mem _ _ children (-9999) none j h with h1 | h2
  · exact Option.noConfusion h1
  · exact h2

/-- Whenever traverse_nodes returns, it returns an in-range node at which the
loop condition fails: a node with untried actions or without children. -/
theorem traverse_nodes_exit {S A : Type} (b : Board S A) (bot_identity : ℕ)
    (t : Arena A) (hInv : ArenaInv t) :
    ∀ (fuel i : ℕ) (s : S) (r : ℕ × S),
      i < t.length →
      traverse_nodes t b bot_identity fuel i s = some r →
      r.1 < t.length ∧
        ((getNode t r.1).untried_actions.isEmpty
          && !(getNode t r.1).child_nodes.isEmpty) = false := by
  intro fuel
  induction fuel with
  | zero =>
    intro i s r hi h
    simp only [traverse_nodes] at h
    exact Option.noConfusion h
  | succ n ih =>
    intro i s r hi h
    simp only [traverse_nodes] at h
    by_cases hcond : ((getNode t i).untried_actions.isEmpty
        && !(getNode t i).child_nodes.isEmpty) = true
    · rw [if_pos hcond] at h
      split at h
      · rename_i j heqsel
        split at h
        · rename_i a heqpa
          rcases selectPass_mem t b s bot_identity _ j heqsel with ⟨ac, hac, hacj⟩
          have hjlt : j < t.length := by
            have := (hInv.child_edges i ac hac).2.1
            omega
          exact ih j _ r hjlt h
        · exact Option.noConfusion h
      · exact ih i s r hi h
    · rw [if_neg hcond] at h
      have hr : r = (i, s) := by
        exact (Option.some_inj.mp h).symm
      subst hr
      exact ⟨hi, Bool.not_eq_true _ ▸ Bool.of_not_eq_true hcond⟩

/-- Whenever the outer traversal loop of think returns, it returns an in-range
node at which the loop condition fails. -/
theorem outerTraverse_exit {S A : Type} (b : Board S A) (bot_identity : ℕ)
    (t : Arena A) (hInv : ArenaInv t) :
    ∀ (fuel i : ℕ) (s : S) (r : ℕ × S),
      i < t.length →
      outerTraverse t b bot_identity fuel i s = some r →
      r.1 < t.length ∧
        ((getNode t r.1).untried_actions.isEmpty
          && !(getNode t r.1).child_nodes.isEmpty) = false := by
  intro fuel
  induction fuel with
  | zero =>
    intro i s r hi h
    simp only [outerTraverse] at h
    exact Option.noConfusion h
  | succ n ih =>
    intro i s r hi h
    simp only [outerTraverse] at h
    by_cases hcond : ((getNode t i).untried_actions.isEmpty
        && !(getNode t i).child_nodes.isEmpty) = true
    · rw [if_pos hcond] at h
      split at h
      · rename_i i2 s2 heqtr
        have h1 := traverse_nodes_exit b bot_identity t hInv n i s (i2, s2) hi heqtr
        exact ih i2 s2 r h1.1 h
      · exact Option.noConfusion h
    · rw [if_neg hcond] at h
      have hr : r = (i, s) := by
        exact (Option.some_inj.mp h).symm
      subst hr
      exact ⟨hi, Bool.of_not_eq_true hcond⟩

/-- Updated parent node produced by expansion: last untried action removed,
one child entry appended, everything else unchanged. -/
def expandedNode {A : Type} (t : Arena A) (i : ℕ) (init : List A) (a : A) :
    MCTSNode A :=
  { getNode t i with
    untried_actions := init,
    child_nodes := (getNode t i).child_nodes ++ [(a, t.length)] }

/-- Arena produced by expansion at node i popping action a: the parent is
rewritten and the fresh child is appended at index t.length. -/
def expandedArena {S A : Type} (t : Arena A) (i : ℕ) (b : Board S A) (s : S)
    (init : List A) (a : A) : Arena A :=
  (t.set i (expandedNode t i init a))
    ++ [⟨some i, some a, [], b.legal_actions (b.next_state s a), 0, 0⟩]

/-- expand_leaf lands in expandedArena when untried actions remain. -/
theorem expand_leaf_expandedArena {S A : Type} (t : Arena A) (i : ℕ)
    (b : Board S A) (s : S) (init : List A) (a : A)
    (hu : (getNode t i).untried_actions = init ++ [a]) :
    expand_leaf t i b s =
      (some t.length, b.next_state s a, expandedArena t i b s init a) := by
  rw [expand_leaf_concat t i b s init a hu]
  rfl

theorem expandedArena_length {S A : Type} (t : Arena A) (i : ℕ)
    (b : Board S A) (s : S) (init : List A) (a : A) :
    (expandedArena t i b s init a).length = t.length + 1 := by
  simp [expandedArena, List.length_set]

theorem getNode_expandedArena_ne {S A : Type} (t : Arena A) (i : ℕ)
    (b : Board S A) (s : S) (init : List A) (a : A) (j : ℕ)
    (hj : j < t.length) (hne : j ≠ i) :
    getNode (expandedArena t i b s init a) j = getNode t j := by
  unfold expandedArena
  rw [getNode_append_lt]
  · exact getNode_set_ne t i j _ (fun he => hne he.symm)
  · rw [List.length_set]
    exact hj

theorem getNode_expandedArena_self {S A : Type} (t : Arena A) (i : ℕ)
    (b : Board S A) (s : S) (init : List A) (a : A) (hi : i < t.length) :
    getNode (expandedArena t i b s init a) i = expandedNode t i init a := by
  unfold expandedArena
  rw [getNode_append_lt]
  · exact getNode_set_self t i _ hi
  · rw [List.length_set]
    exact hi

theorem getNode_expandedArena_new {S A : Type} (t : Arena A) (i : ℕ)
    (b : Board S A) (s : S) (init : List A) (a : A) :
    getNode (expandedArena t i b s init a) t.length
      = ⟨some i, some a, [], b.legal_actions (b.next_state s a), 0, 0⟩ := by
  unfold expandedArena
  have h2 := getNode_append_self (t.set i (expandedNode t i init a))
    ⟨some i, some a, [], b.legal_actions (b.next_state s a), 0, 0⟩
  rw [List.length_set] at h2
  exact h2

theorem getNode_expandedArena_lt_visits {S A : Type} (t : Arena A) (i : ℕ)
    (b : Board S A) (s : S) (init : List A) (a : A) (j : ℕ)
    (hj : j < t.length) (hi : i < t.length) :
    (getNode (expandedArena t i b s init a) j).visits = (getNode t j).visits := by
  by_cases hij : j = i
  · subst hij
    rw [getNode_expandedArena_self t j b s init a hi]
    rfl
  · rw [getNode_expandedArena_ne t i b s init a j hj hij]

/-- Expansion preserves arena well-formedness: the new child points back to
its in-range parent, is registered exactly once under the popped action, and
all pre-existing edges are untouched. -/
theorem expandedArena_inv {S A : Type} (t : Arena A) (i : ℕ) (b : Board S A)
    (s : S) (init : List A) (a : A) (hInv : ArenaInv t) (hi : i < t.length) :
    ArenaInv (expandedArena t i b s init a) := by
  have hlen := expandedArena_length t i b s init a
  have hroot0 : 0 < t.length := List.length_pos.mpr hInv.nonempty
  refine ⟨?_, ?_, ?_, ?_, ?_⟩
  · apply List.ne_nil_of_length_pos
    omega
  · by_cases hi0 : i = 0
    · subst hi0
      rw [getNode_expandedArena_self t 0 b s init a hi]
      exact hInv.root_parent
    · rw [getNode_expandedArena_ne t i b s init a 0 hroot0 (fun he => hi0 he.symm)]
      exact hInv.root_parent
  · intro i2 ac hmem
    by_cases hbig : t.length + 1 ≤ i2
    · rw [getNode_oob _ i2 (by omega : (expandedArena t i b s init a).length ≤ i2)] at hmem
      cases hmem
    · by_cases hnew : i2 = t.length
      · subst hnew
        rw [getNode_expandedArena_new t i b s init a] at hmem
        cases hmem
      · have hi2 : i2 < t.length := by omega
        by_cases hii : i2 = i
        · subst hii
          rw [getNode_expandedArena_self t i2 b s init a hi] at hmem
          rcases List.mem_append.mp hmem with hold | hnw
          · rcases hInv.child_edges i2 ac hold with ⟨h1, h2, h3, h4⟩
            refine ⟨h1, by omega, ?_, ?_⟩
            · rw [getNode_expandedArena_ne t i2 b s init a ac.2 h2 (by omega)]
              exact h3
            · rw [getNode_expandedArena_ne t i2 b s init a ac.2 h2 (by omega)]
              exact h4
          · have hac : ac = (a, t.length) := by
              simpa using hnw
            subst hac
            refine ⟨hi, by omega, ?_, ?_⟩
            · rw [getNode_expandedArena_new t i2 b s init a]
            · rw [getNode_expandedArena_new t i2 b s init a]
        · rw [getNode_expandedArena_ne t i b s init a i2 hi2 hii] at hmem
          rcases hInv.child_edges i2 ac hmem with ⟨h1, h2, h3, h4⟩
          by_cases haci : ac.2 = i
          · refine ⟨h1, by omega, ?_, ?_⟩
            · rw [haci, getNode_expandedArena_self t i b s init a hi]
              rw [haci] at h3
              exact h3
            · rw [haci, getNode_expandedArena_self t i b s init a hi]
              rw [haci] at h4
              exact h4
          · refine ⟨h1, by omega, ?_, ?_⟩
            · rw [getNode_expandedArena_ne t i b s init a ac.2 h2 haci]
              exact h3
            · rw [getNode_expandedArena_ne t i b s init a ac.2 h2 haci]
              exact h4
  · intro j hj0 hjlen
    rw [hlen] at hjlen
    by_cases hnew : j = t.length
    · subst hnew
      refine ⟨i, ?_, hi, a, ?_⟩
      · rw [getNode_expandedArena_new t i b s init a]
      · rw [getNode_expandedArena_self t i b s init a hi]
        unfold expandedNode
        simp
    · have hjt : j < t.length := by omega
      rcases hInv.parent_edges j hj0 hjt with ⟨p, h1, h2, a2, h3⟩
      have hplt : p < t.length := by omega
      refine ⟨p, ?_, h2, a2, ?_⟩
      · by_cases hji : j = i
        · rw [hji, getNode_expandedArena_self t i b s init a hi]
          rw [hji] at h1
          exact h1
        · rw [getNode_expandedArena_ne t i b s init a j hjt hji]
          exact h1
      · by_cases hpi : p = i
        · rw [hpi, getNode_expandedArena_self t i b s init a hi]
          unfold expandedNode
          simp only [List.mem_append]
          left
          rw [hpi] at h3
          exact h3
        · rw [getNode_expandedArena_ne t i b s init a p hplt hpi]
          exact h3
  · intro i2
    by_cases hbig : t.length + 1 ≤ i2
    · rw [getNode_oob _ i2 (by omega : (expandedArena t i b s init a).length ≤ i2)]
      simp [dummyNode]
    · by_cases hnew : i2 = t.length
      · subst hnew
        rw [getNode_expandedArena_new t i b s init a]
        simp
      · have hi2 : i2 < t.length := by omega
        by_cases hii : i2 = i
        · subst hii
          rw [getNode_expandedArena_self t i2 b s init a hi]
          unfold expandedNode
          simp only [List.map_append, List.map_cons, List.map_nil]
          have hnodup := hInv.child_nodup i2
          have hnotmem : t.length ∉ (getNode t i2).child_nodes.map (fun ac => ac.2) := by
            intro hmem
            rcases List.mem_map.mp hmem with ⟨ac, hac, hac2⟩
            have := (hInv.child_edges i2 ac hac).2.1
            omega
          simp [List.nodup_append, hnodup, hnotmem]
        · rw [getNode_expandedArena_ne t i b s init a i2 hi2 hii]
          exact hInv.child_nodup i2

/-- Expansion preserves the statistics invariant: the parent keeps its
counters and the new child starts at zero. -/
theorem expandedArena_statsInv {S A : Type} (t : Arena A) (i : ℕ)
    (b : Board S A) (s : S) (init : List A) (a : A) (hi : i < t.length)
    (hs : statsInv t) : statsInv (expandedArena t i b s init a) := by
  intro j hj
  rw [expandedArena_length] at hj
  by_cases hnew : j = t.length
  · subst hnew
    rw [getNode_expandedArena_new t i b s init a]
  · have hjt : j < t.length := by omega
    by_cases hji : j = i
    · subst hji
      rw [getNode_expandedArena_self t j b s init a hi]
      exact hs j hjt
    · rw [getNode_expandedArena_ne t i b s init a j hjt hji]
      exact hs j hjt

/-- Expansion keeps the root alive: expanding at the root trades an untried
action for a child, expanding elsewhere does not touch the root. -/
theorem expandedArena_rootAlive {S A : Type} (t : Arena A) (i : ℕ)
    (b : Board S A) (s : S) (init : List A) (a : A) (hi : i < t.length)
    (hroot0 : 0 < t.length) (hAlive : rootAlive t) :
    rootAlive (expandedArena t i b s init a) := by
  by_cases hi0 : i = 0
  · subst hi0
    right
    rw [getNode_expandedArena_self t 0 b s init a hi]
    unfold expandedNode
    simp
  · unfold rootAlive
    rw [getNode_expandedArena_ne t i b s init a 0 hroot0 (fun he => hi0 he.symm)]
    exact hAlive

/-- Expansion leaves the sum of root children visit counters unchanged: the
only new entry is the fresh child with zero visits, and no existing counter
moves. -/
theorem expandedArena_rootChildSum {S A : Type} (t : Arena A) (i : ℕ)
    (b : Board S A) (s : S) (init : List A) (a : A) (hInv : ArenaInv t)
    (hi : i < t.length) :
    rootChildSum (expandedArena t i b s init a) = rootChildSum t := by
  have hroot0 : 0 < t.length := List.length_pos.mpr hInv.nonempty
  unfold rootChildSum
  by_cases hi0 : i = 0
  · subst hi0
    rw [getNode_expandedArena_self t 0 b s init a hi]
    unfold expandedNode
    simp only [List.map_append, List.sum_append, List.map_cons, List.map_nil,
      List.sum_cons, List.sum_nil]
    rw [getNode_expandedArena_new t 0 b s init a]
    have hmc : List.map (fun ac => (getNode (expandedArena t 0 b s init a) ac.2).visits)
          (getNode t 0).child_nodes
        = List.map (fun ac => (getNode t ac.2).visits) (getNode t 0).child_nodes := by
      apply List.map_congr_left
      intro ac hac
      have h2 := (hInv.child_edges 0 ac hac).2.1
      exact getNode_expandedArena_lt_visits t 0 b s init a ac.2 h2 hi
    rw [hmc]
    rfl
  · rw [getNode_expandedArena_ne t i b s init a 0 hroot0 (fun he => hi0 he.symm)]
    apply congrArg
    apply List.map_congr_left
    intro ac hac
    have h2 := (hInv.child_edges 0 ac hac).2.1
    exact getNode_expandedArena_lt_visits t i b s init a ac.2 h2 hi

/-- Root liveness only reads the shape of the root node. -/
theorem rootAlive_congr {A : Type} (t t2 : Arena A)
    (hshape : ∀ j, nodeShape (getNode t2 j) = nodeShape (getNode t j))
    (h : rootAlive t) : rootAlive t2 := by
  unfold rootAlive at h ⊢
  rw [nodeShape_untried (hshape 0), nodeShape_child_nodes (hshape 0)]
  exact h

/-- One iteration of think on a well-formed arena with a live root keeps the
arena well-formed and the root alive, and increases the sum of root children
visit counters by exactly one: the backpropagation walk of the iteration
starts strictly below the root and crosses the root child list once. -/
theorem mctsIter_spec {S A : Type} (b : Board S A) (cs : S) (bot_identity : ℕ)
    (rng : ℕ → ℕ) (fuel : ℕ) (t : Arena A) (k : ℕ) (t3 : Arena A) (k3 : ℕ)
    (hInv : ArenaInv t) (hAlive : rootAlive t)
    (h : mctsIter b cs bot_identity rng fuel t k = some (t3, k3)) :
    ArenaInv t3 ∧ rootAlive t3 ∧ rootChildSum t3 = rootChildSum t + 1 := by
  have hroot0 : 0 < t.length := List.length_pos.mpr hInv.nonempty
  simp only [mctsIter] at h
  split at h
  · exact Option.noConfusion h
  · rename_i r i s heqr
    have hexit := outerTraverse_exit b bot_identity t hInv fuel 0 cs (i, s) hroot0 heqr
    have hi : i < t.length := hexit.1
    by_cases hU : (getNode t i).untried_actions.isEmpty = true
    · rw [if_pos hU] at h
      have hch : (getNode t i).child_nodes = [] := by
        have h2 := hexit.2
        rw [hU] at h2
        simp at h2
        exact h2
      have hine : i ≠ 0 := by
        intro he
        subst he
        rcases hAlive with h3 | h3
        · exact h3 (List.isEmpty_iff.mp hU)
        · exact h3 hch
      split at h
      · exact Option.noConfusion h
      · rename_i rk rolloutState k2 heqroll
        split at h
        · exact Option.noConfusion h
        · rename_i won heqwin
          split at h
          · exact Option.noConfusion h
          · rename_i t4 heqbp
            have hinj := Option.some_inj.mp h
            have ht4 : t4 = t3 := congrArg Prod.fst hinj
            subst ht4
            have hshape := backprop_shape won fuel t (some i) t4 heqbp
            refine ⟨arenaInv_congr t t4 hshape.1 hshape.2 hInv,
              rootAlive_congr t t4 hshape.2 hAlive, ?_⟩
            have hsum := backprop_rootChildSum won fuel t i t4 hInv hi heqbp
            rw [if_neg hine] at hsum
            exact hsum
    · rcases List.eq_nil_or_concat (getNode t i).untried_actions with hnil | ⟨l2, a, hl⟩
      · rw [hnil] at hU
        exact absurd rfl hU
      · rw [List.concat_eq_append] at hl
        rw [if_neg hU, expand_leaf_expandedArena t i b s l2 a hl] at h
        have hInvT := expandedArena_inv t i b s l2 a hInv hi
        have hAliveT := expandedArena_rootAlive t i b s l2 a hi hroot0 hAlive
        have hSumT := expandedArena_rootChildSum t i b s l2 a hInv hi
        split at h
        · exact Option.noConfusion h
        · rename_i rk rolloutState k2 heqroll
          split at h
          · exact Option.noConfusion h
          · rename_i won heqwin
            split at h
            · exact Option.noConfusion h
            · rename_i t4 heqbp
              have hinj := Option.some_inj.mp h
              have ht4 : t4 = t3 := congrArg Prod.fst hinj
              subst ht4
              have hlenT : t.length < (expandedArena t i b s l2 a).length := by
                rw [expandedArena_length]
                omega
              have hshape := backprop_shape won fuel (expandedArena t i b s l2 a)
                (some t.length) t4 heqbp
              refine ⟨arenaInv_congr _ t4 hshape.1 hshape.2 hInvT,
                rootAlive_congr _ t4 hshape.2 hAliveT, ?_⟩
              have hsum := backprop_rootChildSum won fuel (expandedArena t i b s l2 a)
                t.length t4 hInvT hlenT heqbp
              rw [if_neg (by omega : t.length ≠ 0)] at hsum
              rw [hsum, hSumT]

/-- One iteration of think preserves the statistics invariant regardless of
any structural assumption: expansion adds a zero-statistics child and
backpropagation adds at most one win per added visit. -/
theorem mctsIter_statsInv {S A : Type} (b : Board S A) (cs : S)
    (bot_identity : ℕ) (rng : ℕ → ℕ) (fuel : ℕ) (t : Arena A) (k : ℕ)
    (t3 : Arena A) (k3 : ℕ) (hs : statsInv t)
    (h : mctsIter b cs bot_identity rng fuel t k = some (t3, k3)) :
    statsInv t3 := by
  simp only [mctsIter] at h
  split at h
  · exact Option.noConfusion h
  · rename_i r i s heqr
    by_cases hU : (getNode t i).untried_actions.isEmpty = true
    · rw [if_pos hU] at h
      split at h
      · exact Option.noConfusion h
      · rename_i rk rolloutState k2 heqroll
        split at h
        · exact Option.noConfusion h
        · rename_i won heqwin
          split at h
          · exact Option.noConfusion h
          · rename_i t4 heqbp
            have hinj := Option.some_inj.mp h
            have ht4 : t4 = t3 := congrArg Prod.fst hinj
            subst ht4
            exact backprop_statsInv won fuel t (some i) t4 hs heqbp
    · have hi : i < t.length := by
        by_contra hno
        rw [getNode_oob t i (le_of_not_lt hno)] at hU
        exact hU rfl
      rcases List.eq_nil_or_concat (getNode t i).untried_actions with hnil | ⟨l2, a, hl⟩
      · rw [hnil] at hU
        exact absurd rfl hU
      · rw [List.concat_eq_append] at hl
        rw [if_neg hU, expand_leaf_expandedArena t i b s l2 a hl] at h
        split at h
        · exact Option.noConfusion h
        · rename_i rk rolloutState k2 heqroll
          split at h
          · exact Option.noConfusion h
          · rename_i won heqwin
            split at h
            · exact Option.noConfusion h
            · rename_i t4 heqbp
              have hinj := Option.some_inj.mp h
              have ht4 : t4 = t3 := congrArg Prod.fst hinj
              subst ht4
              exact backprop_statsInv won fuel (expandedArena t i b s l2 a)
                (some t.length) t4
                (expandedArena_statsInv t i b s l2 a hi hs) heqbp

/-- Running n iterations of think from a well-formed arena with a live root
adds exactly n to the sum of root children visit counters. -/
theorem thinkLoop_spec {S A : Type} (b : Board S A) (cs : S) (bot_identity : ℕ)
    (rng : ℕ → ℕ) (fuel : ℕ) :
    ∀ (n : ℕ) (t : Arena A) (k : ℕ) (t2 : Arena A) (k2 : ℕ),
      ArenaInv t → rootAlive t →
      thinkLoop b cs bot_identity rng fuel n (t, k) = some (t2, k2) →
      ArenaInv t2 ∧ rootAlive t2 ∧ rootChildSum t2 = rootChildSum t + n := by
  intro n
  induction n with
  | zero =>
    intro t k t2 k2 hInv hAlive h
    simp only [thinkLoop, Option.some_inj] at h
    have ht : t = t2 := congrArg Prod.fst h
    subst ht
    exact ⟨hInv, hAlive, rfl⟩
  | succ n ih =>
    intro t k t2 k2 hInv hAlive h
    simp only [thinkLoop] at h
    split at h
    · exact Option.noConfusion h
    · rename_i tk1 heq
      obtain ⟨t1, k1⟩ := tk1
      have hstep := mctsIter_spec b cs bot_identity rng fuel t k t1 k1 hInv hAlive heq
      have hrest := ih t1 k1 t2 k2 hstep.1 hstep.2.1 h
      refine ⟨hrest.1, hrest.2.1, ?_⟩
      rw [hrest.2.2, hstep.2.2]
      omega

/-- Running any number of iterations of think preserves the statistics
invariant. -/
theorem thinkLoop_statsInv {S A : Type} (b : Board S A) (cs : S)
    (bot_identity : ℕ) (rng : ℕ → ℕ) (fuel : ℕ) :
    ∀ (n : ℕ) (t : Arena A) (k : ℕ) (t2 : Arena A) (k2 : ℕ),
      statsInv t →
      thinkLoop b cs bot_identity rng fuel n (t, k) = some (t2, k2) →
      statsInv t2 := by
  intro n
  induction n with
  | zero =>
    intro t k t2 k2 hs h
    simp only [thinkLoop, Option.some_inj] at h
    have ht : t = t2 := congrArg Prod.fst h
    subst ht
    exact hs
  | succ n ih =>
    intro t k t2 k2 hs h
    simp only [thinkLoop] at h
    split at h
    · exact Option.noConfusion h
    · rename_i tk1 heq
      obtain ⟨t1, k1⟩ := tk1
      exact ih t1 k1 t2 k2 (mctsIter_statsInv b cs bot_identity rng fuel t k t1 k1 hs heq) h

/-- The fresh single-node arena built by think is well-formed. -/
theorem arenaInv_fresh {S A : Type} (b : Board S A) (cs : S) :
    ArenaInv ([⟨none, none, [], b.legal_actions cs, 0, 0⟩] : Arena A) := by
  have hch : ∀ i, (getNode
      ([⟨none, none, [], b.legal_actions cs, 0, 0⟩] : Arena A) i).child_nodes = [] := by
    intro i
    cases i with
    | zero => rfl
    | succ n => rfl
  refine ⟨by simp, rfl, ?_, ?_, ?_⟩
  · intro i ac hmem
    rw [hch i] at hmem
    cases hmem
  · intro j hj0 hjlen
    simp only [List.length_singleton] at hjlen
    omega
  · intro i
    rw [hch i]
    simp

/-- The fresh single-node arena has no root children: its visit sum is 0. -/
theorem rootChildSum_fresh {S A : Type} (b : Board S A) (cs : S) :
    rootChildSum ([⟨none, none, [], b.legal_actions cs, 0, 0⟩] : Arena A) = 0 :=
  rfl

/-- The fresh single-node arena satisfies the statistics invariant. -/
theorem statsInv_fresh {S A : Type} (b : Board S A) (cs : S) :
    statsInv ([⟨none, none, [], b.legal_actions cs, 0, 0⟩] : Arena A) := by
  intro j hj
  simp only [List.length_singleton] at hj
  cases j with
  | zero => exact le_refl 0
  | succ n => omega

/-- Claim C4: for every input state with at least one legal action, any
completed run of the search driver over its full iteration budget yields a
tree in which the sum of visits over the root s immediate children equals the
configured iteration count — no iteration s backpropagation path terminates
exactly at the root, because every iteration backpropagates from a strict
descendant of the live root. The run is conditioned on returning (fuel covers
every inner loop), which any finite game adapter provides. -/
theorem claim_C4_root_visit_count (S A : Type) (b : Board S A)
    (current_state : S) (rng : ℕ → ℕ) (iterations fuel : ℕ) (t : Arena A)
    (act : Option A) (hlegal : b.legal_actions current_state ≠ [])
    (h : think b current_state rng iterations fuel = some (t, act)) :
    rootChildSum t = iterations := by
  simp only [think] at h
  split at h
  · exact Option.noConfusion h
  · rename_i tk t1 k1 heq
    have hinj := Option.some_inj.mp h
    have ht1 : t1 = t := congrArg Prod.fst hinj
    subst ht1
    have hAlive : rootAlive ([⟨none, none, [], b.legal_actions current_state, 0, 0⟩] : Arena A) := by
      left
      exact hlegal
    have hspec := thinkLoop_spec b current_state (b.current_player current_state) rng fuel
      iterations _ 0 t1 k1 (arenaInv_fresh b current_state) hAlive heq
    rw [hspec.2.2, rootChildSum_fresh]
    omega

/-- Claim C7: wins never exceed visits. Backpropagation — which adds one visit
at every node of its walk and one win only when the outcome flag is true —
preserves the invariant on any arena satisfying it, and every tree produced by
a completed run of the search driver satisfies it (each phase of every
iteration preserves it, starting from the zero-statistics root). Counters are
naturals, so 0 ≤ wins holds by construction. -/
theorem claim_C7_wins_le_visits (S A : Type) :
    (∀ (t : Arena A) (won : Bool) (fuel : ℕ) (o : Option ℕ) (t2 : Arena A),
      statsInv t → backpropagate t won fuel o = some t2 → statsInv t2) ∧
    (∀ (b : Board S A) (current_state : S) (rng : ℕ → ℕ)
      (iterations fuel : ℕ) (t : Arena A) (act : Option A),
      think b current_state rng iterations fuel = some (t, act) → statsInv t) := by
  constructor
  · intro t won fuel o t2 hs h
    exact backprop_statsInv won fuel t o t2 hs h
  · intro b current_state rng iterations fuel t act h
    simp only [think] at h
    split at h
    · exact Option.noConfusion h
    · rename_i tk t1 k1 heq
      have hinj := Option.some_inj.mp h
      have ht1 : t1 = t := congrArg Prod.fst hinj
      subst ht1
      exact thinkLoop_statsInv b current_state (b.current_player current_state)
        rng fuel iterations _ 0 t1 k1 (statsInv_fresh b current_state) heq

/-- Single-action one-move game used to run the full driver concretely: state
0 offers action 7, every move advances the counter, states from 1 on are
terminal wins for player 1 (the only mover). -/
def boardW : Board ℕ ℕ :=
  ⟨fun s => if s = 0 then [7] else [],
   fun s _ => s + 1,
   fun s => decide (1 ≤ s),
   fun _ => 1,
   fun s => if 1 ≤ s then some (fun p => if p = 1 then 1 else 0) else none,
   fun _ => none⟩

/-- Arena produced by one full iteration of think on boardW from state 0: the
root expanded its single action into child 1 and the winning simulation was
backpropagated through both nodes. -/
def arenaW : Arena ℕ :=
  [⟨none, none, [(7, 1)], [], 1, 1⟩, ⟨some 0, some 7, [], [], 1, 1⟩]

/-- One-iteration run of the driver loop on boardW, evaluated by reduction:
traversal is skipped (the root has an untried action), expansion creates child
1 at state 1, the rollout returns the terminal state immediately and
backpropagation credits the win to both nodes. -/
theorem thinkLoop_boardW :
    thinkLoop boardW 0 (boardW.current_player 0) (fun _ => 0) 10 1
      ([⟨none, none, [], boardW.legal_actions 0, 0, 0⟩], 0) = some (arenaW, 0) := rfl

/-- Decision extraction on arenaW picks the single child action 7. -/
theorem get_best_action_arenaW : get_best_action arenaW 0 = some 7 := by
  have hc : (getNode arenaW 0).child_nodes = [(7, 1)] := rfl
  have h1w : (getNode arenaW 1).wins = 1 := rfl
  have h1v : (getNode arenaW 1).visits = 1 := rfl
  unfold get_best_action scanBest
  rw [hc]
  simp only [List.foldl_cons, List.foldl_nil, h1w, h1v]
  norm_num

/-- Full evaluation of think on boardW with one iteration. -/
theorem think_boardW :
    think boardW 0 (fun _ => 0) 1 10 = some (arenaW, some 7) := by
  simp only [think]
  rw [thinkLoop_boardW]
  show some (arenaW, get_best_action arenaW 0) = some (arenaW, some 7)
  rw [get_best_action_arenaW]

/-- Witness for claim C4: the one-iteration run on boardW completes and the
single root child holds exactly one visit. -/
theorem claim_C4_root_visit_count_witness :
    think boardW 0 (fun _ => 0) 1 10 = some (arenaW, some 7) ∧
      rootChildSum arenaW = 1 :=
  ⟨think_boardW,
    claim_C4_root_visit_count ℕ ℕ boardW 0 (fun _ => 0) 1 10 arenaW (some 7)
      (by decide) think_boardW⟩

/-- Witness for claim C7: backpropagation through the two-node arenaC1 keeps
wins below visits, and the tree produced by the completed one-iteration run on
boardW satisfies the invariant. -/
theorem claim_C7_wins_le_visits_witness :
    statsInv ([⟨none, none, [(5, 1)], [], 2, 1⟩,
      ⟨some 0, some 5, [], [], 2, 2⟩] : Arena ℕ) ∧ statsInv arenaW :=
  ⟨(claim_C7_wins_le_visits ℕ ℕ).1 arenaC1 true 5 (some 1)
      [⟨none, none, [(5, 1)], [], 2, 1⟩, ⟨some 0, some 5, [], [], 2, 2⟩]
      (by unfold statsInv; decide) (by decide),
    (claim_C7_wins_le_visits ℕ ℕ).2 boardW 0 (fun _ => 0) 1 10 arenaW (some 7)
      think_boardW⟩
